import Mathlib

/-!
Shallow embedding of the IP-to-ASN resolution and caching engine of the
syrup-shroud repository (src/ip_lookup.py, src/ip_validator.py and
src/log_analysis/*), together with theorems settling the frozen claims.

Modelling conventions:
* An IPv4 address is a `Nat` below `2^32`, an IPv6 address a `Nat` below
  `2^128`; the tag is carried by `IPAddr`.
* A CIDR network (`ipaddress.ip_network` with `strict=True`, i.e. host bits
  zero) is a `Pfx`: the `len` leading bits `pfx` of the network address.
  Python's `ip in network` test (`network_address <= ip <= broadcast_address`)
  is `memB`.
* A CIDR string from the RIPE API is a `RawCidr`, carrying the two
  observations the code makes of the text: whether it is exactly one of the
  literal strings `"0.0.0.0/0"` / `"::/0"` of the excluded-prefix sets
  (`excludedLiteral`), and its `ip_network` parse result (`parsed`; `none`
  is a `ValueError`). A non-canonical spelling of the catch-all, such as
  `"0.0.0.0/0.0.0.0"` or `"::0/0"`, has `excludedLiteral = false` yet
  parses to the `/0` network. CIDR strings from cache files, and the subnet
  sets held in memory, are modelled post-parse (one canonical network per
  element); `_summarize_subnets`, whose literal-string filter acts on those
  in-memory sets, is accordingly modelled filtering the parsed value.
* Python dicts are association lists in insertion order; Python sets are
  lists (the proofs never depend on an ordering of a set).
* Network and registry calls are oracles passed in as arguments; the `Bool`
  components of the results record whether the WHOIS (reverse) and the
  RIPE announced-prefixes (forward) calls were made.
-/

namespace SyrupShroud

/-- A CIDR network in canonical form: the `len` leading bits are `pfx`,
the remaining host bits are zero (Python `ip_network` with `strict=True`). -/
structure Pfx where
  pfx : Nat
  len : Nat
deriving DecidableEq, Repr

/-- Network address of a CIDR network over a `W`-bit address space. -/
def netaddr (W : Nat) (n : Pfx) : Nat := n.pfx * 2 ^ (W - n.len)

/-- Broadcast (highest) address of a CIDR network over `W` bits. -/
def bcast (W : Nat) (n : Pfx) : Nat := n.pfx * 2 ^ (W - n.len) + (2 ^ (W - n.len) - 1)

/-- Python's `ip in network`: membership of an address in a network. -/
def memB (W : Nat) (n : Pfx) (ip : Nat) : Bool := ip / 2 ^ (W - n.len) == n.pfx

/-- An address belongs to some network of the list. -/
def coveredBy (W : Nat) (l : List Pfx) (ip : Nat) : Prop := ∃ n ∈ l, memB W n ip = true

theorem memB_iff_div {W : Nat} {n : Pfx} {ip : Nat} :
    memB W n ip = true ↔ ip / 2 ^ (W - n.len) = n.pfx := by
  simp [memB]

theorem lt_succ_mul_div (ip : Nat) {d : Nat} (hd : 0 < d) : ip < (ip / d + 1) * d := by
  have h := Nat.div_add_mod ip d
  have h2 := Nat.mod_lt ip hd
  calc ip = d * (ip / d) + ip % d := h.symm
    _ < d * (ip / d) + d := by omega
    _ = (ip / d + 1) * d := by ring

theorem div_eq_iff_range {d p ip : Nat} (hd : 0 < d) :
    ip / d = p ↔ p * d ≤ ip ∧ ip < (p + 1) * d := by
  constructor
  · intro h
    subst h
    exact ⟨Nat.div_mul_le_self ip d, lt_succ_mul_div ip hd⟩
  · intro ⟨h1, h2⟩
    have ha : p ≤ ip / d := (Nat.le_div_iff_mul_le hd).2 h1
    have hb : ip / d < p + 1 := (Nat.div_lt_iff_lt_mul hd).2 h2
    omega

/-- Membership as a range test, matching Python's `__contains__`. -/
theorem memB_iff_range {W : Nat} {n : Pfx} {ip : Nat} :
    memB W n ip = true ↔ netaddr W n ≤ ip ∧ ip ≤ bcast W n := by
  have hd : 0 < 2 ^ (W - n.len) := Nat.pos_pow_of_pos _ (by omega)
  rw [memB_iff_div, div_eq_iff_range hd]
  unfold netaddr bcast
  rw [Nat.succ_mul]
  omega

/-- `net.supernet()` with `prefixlen_diff=1`; identity on a `/0` to stay total
(the code never calls it on `/0`). -/
def supernet (n : Pfx) : Pfx := if n.len = 0 then n else ⟨n.pfx / 2, n.len - 1⟩

theorem supernet_len_le (n : Pfx) : (supernet n).len ≤ n.len := by
  unfold supernet
  split
  · exact Nat.le_refl _
  · simp

/-- Membership in a child network implies membership in its supernet. -/
theorem memB_supernet {W : Nat} {n : Pfx} {ip : Nat} (hw : n.len ≤ W)
    (h : memB W n ip = true) : memB W (supernet n) ip = true := by
  unfold supernet
  split
  · exact h
  · rename_i hne
    rw [memB_iff_div] at h ⊢
    have hstep : W - (n.len - 1) = (W - n.len) + 1 := by omega
    simp only [hstep, pow_succ]
    rw [← Nat.div_div_eq_div_mul, h]

/-- Two distinct networks with the same supernet are its two halves: the
supernet's addresses are exactly the union of theirs. -/
theorem supernet_union {W : Nat} {a b : Pfx} {ip : Nat}
    (hwa : a.len ≤ W) (hwb : b.len ≤ W)
    (hs : supernet a = supernet b) (hne : a ≠ b) :
    memB W (supernet b) ip = true ↔ (memB W a ip = true ∨ memB W b ip = true) := by
  by_cases hb0 : b.len = 0
  · have hsb : supernet b = b := by unfold supernet; simp [hb0]
    rw [hsb]
    by_cases ha0 : a.len = 0
    · exfalso
      apply hne
      have hsa : supernet a = a := by unfold supernet; simp [ha0]
      rw [← hsa, hs, hsb]
    · have hmem : memB W a ip = true → memB W b ip = true := by
        intro h
        have := memB_supernet hwa h
        rwa [hs, hsb] at this
      constructor
      · intro h; exact Or.inr h
      · rintro (h | h)
        · exact hmem h
        · exact h
  · by_cases ha0 : a.len = 0
    · have hsa : supernet a = a := by unfold supernet; simp [ha0]
      have hsb' : supernet b = a := by rw [← hs, hsa]
      rw [hsb']
      have hmem : memB W b ip = true → memB W a ip = true := by
        intro h
        have := memB_supernet hwb h
        rwa [hs.symm, hsa] at this
      constructor
      · intro h; exact Or.inl h
      · rintro (h | h)
        · exact h
        · exact hmem h
    · -- both proper children of the common supernet
      have hsa : supernet a = ⟨a.pfx / 2, a.len - 1⟩ := by unfold supernet; simp [ha0]
      have hsb : supernet b = ⟨b.pfx / 2, b.len - 1⟩ := by unfold supernet; simp [hb0]
      rw [hsa, hsb] at hs
      have hlen : a.len = b.len := by
        have := congrArg Pfx.len hs
        simp at this
        omega
      have hpfx : a.pfx / 2 = b.pfx / 2 := by
        have := congrArg Pfx.pfx hs
        simpa using this
      have hpne : a.pfx ≠ b.pfx := by
        intro h
        exact hne (by cases a; cases b; simp_all)
      rw [hsb]
      simp only [memB_iff_div]
      have hstep : W - (b.len - 1) = (W - b.len) + 1 := by omega
      simp only [hstep, pow_succ]
      rw [← Nat.div_div_eq_div_mul]
      have hhalves : a.pfx = 2 * (b.pfx / 2) ∨ a.pfx = 2 * (b.pfx / 2) + 1 := by omega
      have hbhalves : b.pfx = 2 * (b.pfx / 2) ∨ b.pfx = 2 * (b.pfx / 2) + 1 := by omega
      rw [hlen]
      constructor
      · intro h
        have : ip / 2 ^ (W - b.len) = 2 * (b.pfx / 2) ∨
            ip / 2 ^ (W - b.len) = 2 * (b.pfx / 2) + 1 := by omega
        omega
      · intro h
        omega

/-- Association-list read (`dict.get`) keyed by supernet. -/
def getKey : List (Pfx × Pfx) → Pfx → Option Pfx
  | [], _ => none
  | p :: rest, k => if p.1 = k then some p.2 else getKey rest k

/-- Association-list delete (`del dict[key]`). -/
def eraseKey : List (Pfx × Pfx) → Pfx → List (Pfx × Pfx)
  | [], _ => []
  | p :: rest, k => if p.1 = k then rest else p :: eraseKey rest k

/-- Termination weight of the `to_merge` work list. -/
def tmWeight (l : List Pfx) : Nat := (l.map (fun n => 2 * n.len + 3)).sum

/-- Termination weight of the `subnets` map. -/
def snWeight (l : List (Pfx × Pfx)) : Nat := (l.map (fun p => 2 * p.2.len + 2)).sum

theorem snWeight_cons (p : Pfx × Pfx) (l : List (Pfx × Pfx)) :
    snWeight (p :: l) = 2 * p.2.len + 2 + snWeight l := by
  simp [snWeight]

theorem tmWeight_cons (n : Pfx) (l : List Pfx) :
    tmWeight (n :: l) = 2 * n.len + 3 + tmWeight l := by
  simp [tmWeight]

theorem snWeight_erase {sn : List (Pfx × Pfx)} {k v : Pfx} :
    getKey sn k = some v → snWeight (eraseKey sn k) + (2 * v.len + 2) = snWeight sn := by
  induction sn with
  | nil => intro h; simp [getKey] at h
  | cons p rest ih =>
    intro h
    by_cases hk : p.1 = k
    · simp [getKey, hk] at h
      simp only [eraseKey, if_pos hk, snWeight_cons]
      rw [h]
      omega
    · simp [getKey, hk] at h
      simp only [eraseKey, if_neg hk, snWeight_cons]
      have := ih h
      omega

theorem getKey_mem {sn : List (Pfx × Pfx)} {k v : Pfx} (h : getKey sn k = some v) :
    (k, v) ∈ sn := by
  induction sn with
  | nil => simp [getKey] at h
  | cons p rest ih =>
    by_cases hk : p.1 = k
    · simp [getKey, hk] at h
      have hp : p = (k, v) := by
        cases p
        simp_all
      rw [← hp]
      exact List.mem_cons_self _ _
    · simp [getKey, hk] at h
      exact List.mem_cons_of_mem _ (ih h)

theorem eraseKey_subset {sn : List (Pfx × Pfx)} {k : Pfx} {p : Pfx × Pfx}
    (h : p ∈ eraseKey sn k) : p ∈ sn := by
  induction sn with
  | nil => simp [eraseKey] at h
  | cons q rest ih =>
    by_cases hk : q.1 = k
    · simp [eraseKey, hk] at h
      exact List.mem_cons_of_mem _ h
    · simp [eraseKey, hk] at h
      rcases h with h | h
      · exact h ▸ List.mem_cons_self _ _
      · exact List.mem_cons_of_mem _ (ih h)

/-- First phase of Python's `ipaddress._collapse_addresses_internal`: pop a
network, look its supernet up in the `subnets` map, and either record it,
drop a duplicate, or merge the two sibling halves into their supernet. -/
def phase1 : List Pfx → List (Pfx × Pfx) → List (Pfx × Pfx)
  | [], sn => sn
  | net :: rest, sn =>
    match hget : getKey sn (supernet net) with
    | none => phase1 rest ((supernet net, net) :: sn)
    | some e =>
      if e = net then phase1 rest sn
      else phase1 (supernet net :: rest) (eraseKey sn (supernet net))
termination_by tm sn => tmWeight tm + snWeight sn
decreasing_by
  · simp only [tmWeight_cons, snWeight_cons]
    omega
  · simp only [tmWeight_cons]
    omega
  · have herase := snWeight_erase hget
    have hlen := supernet_len_le net
    simp only [tmWeight_cons]
    omega

/-- The values of the `subnets` map (Python `subnets.values()`). -/
def snVals (l : List (Pfx × Pfx)) : List Pfx := l.map (·.2)

theorem coveredBy_cons {W : Nat} {n : Pfx} {l : List Pfx} {ip : Nat} :
    coveredBy W (n :: l) ip ↔ memB W n ip = true ∨ coveredBy W l ip := by
  simp [coveredBy]

theorem coveredBy_perm {W : Nat} {l l' : List Pfx} {ip : Nat} (h : l.Perm l') :
    coveredBy W l ip ↔ coveredBy W l' ip := by
  unfold coveredBy
  constructor <;> rintro ⟨n, hn, hm⟩
  · exact ⟨n, h.mem_iff.1 hn, hm⟩
  · exact ⟨n, h.mem_iff.2 hn, hm⟩

theorem getKey_perm_erase {sn : List (Pfx × Pfx)} {k v : Pfx} :
    getKey sn k = some v → sn.Perm ((k, v) :: eraseKey sn k) := by
  induction sn with
  | nil => intro h; simp [getKey] at h
  | cons p rest ih =>
    intro h
    by_cases hk : p.1 = k
    · simp [getKey, hk] at h
      have hp : p = (k, v) := by cases p; simp_all
      simp [eraseKey, hk, hp]
    · simp [getKey, hk] at h
      simp only [eraseKey, if_neg hk]
      exact (List.Perm.cons p (ih h)).trans (List.Perm.swap _ _ _)

/-- Invariant of the `subnets` map: every entry is keyed by the supernet of
its value, and values fit in the address width. -/
def SnInv (W : Nat) (sn : List (Pfx × Pfx)) : Prop :=
  ∀ p ∈ sn, p.1 = supernet p.2 ∧ p.2.len ≤ W

/-- Invariant of the work list: networks fit in the address width. -/
def TmInv (W : Nat) (tm : List Pfx) : Prop := ∀ n ∈ tm, n.len ≤ W

theorem phase1_none {net : Pfx} {rest : List Pfx} {sn : List (Pfx × Pfx)}
    (h : getKey sn (supernet net) = none) :
    phase1 (net :: rest) sn = phase1 rest ((supernet net, net) :: sn) := by
  conv_lhs => rw [phase1]
  split
  · rfl
  · rename_i e heq
    rw [h] at heq
    exact absurd heq (by simp)

theorem phase1_dup {net : Pfx} {rest : List Pfx} {sn : List (Pfx × Pfx)}
    (h : getKey sn (supernet net) = some net) :
    phase1 (net :: rest) sn = phase1 rest sn := by
  conv_lhs => rw [phase1]
  split
  · rename_i heq
    rw [h] at heq
    exact absurd heq (by simp)
  · rename_i e heq
    rw [h] at heq
    have he : e = net := by injection heq.symm
    rw [if_pos he]

theorem phase1_merge {net e : Pfx} {rest : List Pfx} {sn : List (Pfx × Pfx)}
    (h : getKey sn (supernet net) = some e) (hne : e ≠ net) :
    phase1 (net :: rest) sn = phase1 (supernet net :: rest) (eraseKey sn (supernet net)) := by
  conv_lhs => rw [phase1]
  split
  · rename_i heq
    rw [h] at heq
    exact absurd heq (by simp)
  · rename_i e' heq
    rw [h] at heq
    have he : e' = e := by injection heq.symm
    rw [he, if_neg hne]

/-- Phase 1 of the collapse preserves the covered address set exactly. -/
theorem phase1_covered (W : Nat) (tm : List Pfx) (sn : List (Pfx × Pfx)) :
    SnInv W sn → TmInv W tm → ∀ ip,
      (coveredBy W (snVals (phase1 tm sn)) ip ↔
        coveredBy W (snVals sn) ip ∨ coveredBy W tm ip) := by
  induction tm, sn using phase1.induct with
  | case1 sn =>
    intro _ _ ip
    rw [phase1]
    simp [coveredBy]
  | case2 net rest sn hget ih =>
    intro hsn htm ip
    rw [phase1_none hget]
    have hsn' : SnInv W ((supernet net, net) :: sn) := by
      intro p hp
      rcases List.mem_cons.1 hp with hp | hp
      · subst hp
        exact ⟨rfl, htm net (List.mem_cons_self _ _)⟩
      · exact hsn p hp
    have htm' : TmInv W rest := fun n hn => htm n (List.mem_cons_of_mem _ hn)
    rw [ih hsn' htm' ip]
    simp only [snVals, List.map_cons, coveredBy_cons]
    tauto
  | case3 rest sn e hget ih =>
    intro hsn htm ip
    rw [phase1_dup hget]
    have htm' : TmInv W rest := fun n hn => htm n (List.mem_cons_of_mem _ hn)
    rw [ih hsn htm' ip]
    have hmem : memB W e ip = true → coveredBy W (snVals sn) ip := by
      intro hm
      refine ⟨e, ?_, hm⟩
      have := getKey_mem hget
      exact List.mem_map.2 ⟨_, this, rfl⟩
    rw [coveredBy_cons]
    tauto
  | case4 net rest sn e hget hne ih =>
    intro hsn htm ip
    rw [phase1_merge hget hne]
    have hkeyv := hsn _ (getKey_mem hget)
    have hse : supernet net = supernet e := hkeyv.1
    have hsn' : SnInv W (eraseKey sn (supernet net)) :=
      fun p hp => hsn p (eraseKey_subset hp)
    have htm' : TmInv W (supernet net :: rest) := by
      intro n hn
      rcases List.mem_cons.1 hn with hn | hn
      · subst hn
        exact Nat.le_trans (supernet_len_le net) (htm net (List.mem_cons_self _ _))
      · exact htm n (List.mem_cons_of_mem _ hn)
    rw [ih hsn' htm' ip]
    have hperm : (snVals sn).Perm (snVals ((supernet net, e) :: eraseKey sn (supernet net))) :=
      List.Perm.map (fun p : Pfx × Pfx => p.2) (getKey_perm_erase hget)
    have hcvsn : coveredBy W (snVals sn) ip ↔
        memB W e ip = true ∨ coveredBy W (snVals (eraseKey sn (supernet net))) ip := by
      rw [coveredBy_perm hperm]
      simp only [snVals, List.map_cons, coveredBy_cons]
    have hunion : memB W (supernet net) ip = true ↔
        (memB W e ip = true ∨ memB W net ip = true) := by
      have h1 : supernet e = supernet net := hse.symm
      exact supernet_union hkeyv.2 (htm net (List.mem_cons_self _ _)) h1
        (fun h => hne (h ▸ rfl))
    rw [coveredBy_cons, coveredBy_cons, hcvsn, hunion]
    tauto

/-- Python's ordering on networks of one family: by network address, then by
netmask (i.e. prefix length). -/
def netLe (W : Nat) (a b : Pfx) : Bool :=
  decide (netaddr W a < netaddr W b ∨ (netaddr W a = netaddr W b ∧ a.len ≤ b.len))

theorem netLe_trans (W : Nat) : ∀ a b c : Pfx,
    netLe W a b → netLe W b c → netLe W a c := by
  intro a b c hab hbc
  simp only [netLe, decide_eq_true_eq] at *
  omega

theorem netLe_total (W : Nat) : ∀ a b : Pfx, netLe W a b || netLe W b a := by
  intro a b
  simp only [netLe]
  by_cases h : netaddr W a < netaddr W b ∨ (netaddr W a = netaddr W b ∧ a.len ≤ b.len)
  · simp [h]
  · simp [h]
    push_neg at h
    omega

theorem netLe_netaddr_le {W : Nat} {a b : Pfx} (h : netLe W a b = true) :
    netaddr W a ≤ netaddr W b := by
  simp only [netLe, decide_eq_true_eq] at h
  omega

/-- If `la` starts no later and ends no earlier than `n`, then `n`'s
addresses are contained in `la`'s. -/
theorem memB_of_contained {W : Nat} {la n : Pfx} {ip : Nat}
    (hle : netaddr W la ≤ netaddr W n) (hbc : bcast W n ≤ bcast W la)
    (h : memB W n ip = true) : memB W la ip = true := by
  rw [memB_iff_range] at h ⊢
  omega

/-- Second phase of `_collapse_addresses_internal`: iterate over the sorted
networks, skipping any network whose range the previously yielded one
already covers. -/
def phase2go (W : Nat) : Option Pfx → List Pfx → List Pfx
  | _, [] => []
  | last, n :: rest =>
    match last with
    | some la =>
      if bcast W n ≤ bcast W la then phase2go W (some la) rest
      else n :: phase2go W (some n) rest
    | none => n :: phase2go W (some n) rest

theorem phase2go_subset {W : Nat} {m : Pfx} :
    ∀ (l : List Pfx) (last : Option Pfx), m ∈ phase2go W last l → m ∈ l := by
  intro l
  induction l with
  | nil => intro last h; simp [phase2go] at h
  | cons n rest ih =>
    intro last h
    match last with
    | some la =>
      rw [phase2go] at h
      by_cases hbc : bcast W n ≤ bcast W la
      · rw [if_pos hbc] at h
        exact List.mem_cons_of_mem _ (ih _ h)
      · rw [if_neg hbc] at h
        rcases List.mem_cons.1 h with h | h
        · exact h ▸ List.mem_cons_self _ _
        · exact List.mem_cons_of_mem _ (ih _ h)
    | none =>
      rw [phase2go] at h
      rcases List.mem_cons.1 h with h | h
      · exact h ▸ List.mem_cons_self _ _
      · exact List.mem_cons_of_mem _ (ih _ h)

theorem phase2go_complete {W ip : Nat} :
    ∀ (l : List Pfx) (last : Option Pfx),
      List.Pairwise (fun a b => netLe W a b = true) l →
      (∀ la, last = some la → ∀ x ∈ l, netLe W la x = true) →
      coveredBy W l ip →
      coveredBy W (phase2go W last l) ip ∨
        (∃ la, last = some la ∧ memB W la ip = true) := by
  intro l
  induction l with
  | nil =>
    intro last _ _ hcov
    rcases hcov with ⟨n, hn, _⟩
    simp at hn
  | cons n rest ih =>
    intro last hpw hlast hcov
    have hpw_head := (List.pairwise_cons.1 hpw).1
    have hpw_rest := (List.pairwise_cons.1 hpw).2
    match last with
    | some la =>
      rw [phase2go]
      by_cases hbc : bcast W n ≤ bcast W la
      · rw [if_pos hbc]
        have hla_n : netLe W la n = true := hlast la rfl n (List.mem_cons_self _ _)
        rcases coveredBy_cons.1 hcov with hmem | hcov'
        · exact Or.inr ⟨la, rfl, memB_of_contained (netLe_netaddr_le hla_n) hbc hmem⟩
        · exact ih (some la) hpw_rest
            (fun la' hla' x hx => hlast la' hla' x (List.mem_cons_of_mem _ hx)) hcov'
      · rw [if_neg hbc]
        rcases coveredBy_cons.1 hcov with hmem | hcov'
        · exact Or.inl (coveredBy_cons.2 (Or.inl hmem))
        · rcases ih (some n) hpw_rest
              (fun la' hla' x hx => by
                injection hla' with hla'
                exact hla' ▸ hpw_head x hx) hcov' with h | ⟨la', hla', hm⟩
          · exact Or.inl (coveredBy_cons.2 (Or.inr h))
          · injection hla' with hla'
            exact Or.inl (coveredBy_cons.2 (Or.inl (hla' ▸ hm)))
    | none =>
      rw [phase2go]
      rcases coveredBy_cons.1 hcov with hmem | hcov'
      · exact Or.inl (coveredBy_cons.2 (Or.inl hmem))
      · rcases ih (some n) hpw_rest
            (fun la' hla' x hx => by
              injection hla' with hla'
              exact hla' ▸ hpw_head x hx) hcov' with h | ⟨la', hla', hm⟩
        · exact Or.inl (coveredBy_cons.2 (Or.inr h))
        · injection hla' with hla'
          exact Or.inl (coveredBy_cons.2 (Or.inl (hla' ▸ hm)))

/-- Stable insertion of an element in front of the first element it compares
no greater than. -/
def insertSorted {A : Type} (le : A → A → Bool) (x : A) : List A → List A
  | [] => [x]
  | y :: rest => if le x y then x :: y :: rest else y :: insertSorted le x rest

/-- Python's stable `sorted` builtin, modelled as a stable insertion sort
(any two stable sorts with the same total preorder key agree). -/
def pySorted {A : Type} (le : A → A → Bool) (l : List A) : List A :=
  l.foldr (insertSorted le) []

theorem insertSorted_perm {A : Type} (le : A → A → Bool) (x : A) :
    ∀ l : List A, (insertSorted le x l).Perm (x :: l) := by
  intro l
  induction l with
  | nil => simp [insertSorted]
  | cons y rest ih =>
    rw [insertSorted]
    by_cases h : le x y
    · rw [if_pos h]
    · rw [if_neg h]
      exact (ih.cons y).trans (List.Perm.swap x y rest)

theorem pySorted_perm {A : Type} (le : A → A → Bool) :
    ∀ l : List A, (pySorted le l).Perm l := by
  intro l
  induction l with
  | nil => simp [pySorted]
  | cons y rest ih =>
    have h : pySorted le (y :: rest) = insertSorted le y (pySorted le rest) := rfl
    rw [h]
    exact (insertSorted_perm le y (pySorted le rest)).trans (ih.cons y)

theorem mem_insertSorted {A : Type} {le : A → A → Bool} {x a : A} {l : List A} :
    a ∈ insertSorted le x l ↔ a = x ∨ a ∈ l :=
  by rw [(insertSorted_perm le x l).mem_iff]; simp

theorem pairwise_insertSorted {A : Type} {le : A → A → Bool}
    (htr : ∀ a b c, le a b = true → le b c = true → le a c = true)
    (hto : ∀ a b, le a b = true ∨ le b a = true) (x : A) :
    ∀ l : List A, l.Pairwise (fun a b => le a b = true) →
      (insertSorted le x l).Pairwise (fun a b => le a b = true) := by
  intro l
  induction l with
  | nil => intro _; simp [insertSorted]
  | cons y rest ih =>
    intro hpw
    have hy := (List.pairwise_cons.1 hpw).1
    have hrest := (List.pairwise_cons.1 hpw).2
    rw [insertSorted]
    by_cases h : le x y
    · rw [if_pos h]
      refine List.pairwise_cons.2 ⟨?_, hpw⟩
      intro b hb
      rcases List.mem_cons.1 hb with hb | hb
      · exact hb ▸ h
      · exact htr x y b h (hy b hb)
    · rw [if_neg h]
      refine List.pairwise_cons.2 ⟨?_, ih hrest⟩
      intro b hb
      rcases mem_insertSorted.1 hb with hb | hb
      · rcases hto x y with hxy | hyx
        · exact absurd hxy h
        · exact hb ▸ hyx
      · exact hy b hb

theorem pairwise_pySorted {A : Type} {le : A → A → Bool}
    (htr : ∀ a b c, le a b = true → le b c = true → le a c = true)
    (hto : ∀ a b, le a b = true ∨ le b a = true) :
    ∀ l : List A, (pySorted le l).Pairwise (fun a b => le a b = true) := by
  intro l
  induction l with
  | nil => simp [pySorted]
  | cons y rest ih => exact pairwise_insertSorted htr hto y _ ih

/-- A structural twin of `phase1` driven by a fuel counter, for closed-term
evaluation; `phase1F_eq` shows any fuel above the loop's weight computes
`phase1` itself. -/
def phase1F : Nat → List Pfx → List (Pfx × Pfx) → List (Pfx × Pfx)
  | 0, _, sn => sn
  | fuel + 1, tm, sn =>
    match tm with
    | [] => sn
    | net :: rest =>
      match getKey sn (supernet net) with
      | none => phase1F fuel rest ((supernet net, net) :: sn)
      | some e =>
        if e = net then phase1F fuel rest sn
        else phase1F fuel (supernet net :: rest) (eraseKey sn (supernet net))

theorem phase1F_eq : ∀ (fuel : Nat) (tm : List Pfx) (sn : List (Pfx × Pfx)),
    tmWeight tm + snWeight sn < fuel → phase1F fuel tm sn = phase1 tm sn := by
  intro fuel
  induction fuel with
  | zero => intro tm sn h; omega
  | succ fuel ih =>
    intro tm sn h
    match tm with
    | [] =>
      rw [phase1]
      rfl
    | net :: rest =>
      rw [phase1F]
      cases hget : getKey sn (supernet net) with
      | none =>
        rw [phase1_none hget, ih]
        rw [tmWeight_cons] at h
        rw [snWeight_cons]
        have hpr : ((supernet net, net) : Pfx × Pfx).2 = net := rfl
        simp only [hpr]
        omega
      | some e =>
        show (if e = net then phase1F fuel rest sn
              else phase1F fuel (supernet net :: rest) (eraseKey sn (supernet net))) =
            phase1 (net :: rest) sn
        by_cases he : e = net
        · rw [if_pos he, phase1_dup (he ▸ hget), ih]
          rw [tmWeight_cons] at h
          omega
        · rw [if_neg he, phase1_merge hget he, ih]
          have herase := snWeight_erase hget
          have hlen := supernet_len_le net
          rw [tmWeight_cons] at h
          rw [tmWeight_cons]
          omega

/-- `ipaddress.collapse_addresses` on a list of same-family networks:
sibling merging (phase 1), sorting, and subsumption removal (phase 2). -/
def pyCollapse (W : Nat) (l : List Pfx) : List Pfx :=
  phase2go W none
    (pySorted (netLe W) (snVals (phase1F (tmWeight l.reverse + 1) l.reverse [])))

/-- The collapse preserves the covered address set exactly. -/
theorem pyCollapse_covered {W : Nat} {l : List Pfx} {ip : Nat}
    (hw : ∀ n ∈ l, n.len ≤ W) :
    coveredBy W (pyCollapse W l) ip ↔ coveredBy W l ip := by
  have hrev : TmInv W l.reverse := fun n hn => hw n (List.mem_reverse.1 hn)
  have hph1 := phase1_covered W l.reverse [] (fun p hp => absurd hp (by simp))
    hrev ip
  have hnil : ¬ coveredBy W (snVals ([] : List (Pfx × Pfx))) ip := by
    rintro ⟨n, hn, _⟩
    simp [snVals] at hn
  have hrevcov : coveredBy W l.reverse ip ↔ coveredBy W l ip :=
    coveredBy_perm (List.reverse_perm l)
  have hF : phase1F (tmWeight l.reverse + 1) l.reverse [] = phase1 l.reverse [] := by
    apply phase1F_eq
    simp [snWeight]
  unfold pyCollapse
  rw [hF]
  have hsortcov : coveredBy W (pySorted (netLe W) (snVals (phase1 l.reverse []))) ip ↔
      coveredBy W (snVals (phase1 l.reverse [])) ip :=
    coveredBy_perm (pySorted_perm _ _)
  constructor
  · rintro ⟨m, hm, hmem⟩
    have hm' := phase2go_subset _ _ hm
    have : coveredBy W (snVals (phase1 l.reverse [])) ip := hsortcov.1 ⟨m, hm', hmem⟩
    rw [hph1] at this
    rcases this with h | h
    · exact absurd h hnil
    · exact hrevcov.1 h
  · intro hcov
    have hsorted : List.Pairwise (fun a b => netLe W a b = true)
        (pySorted (netLe W) (snVals (phase1 l.reverse []))) := by
      apply pairwise_pySorted
      · exact fun a b c hab hbc => netLe_trans W a b c hab hbc
      · intro a b
        have h := netLe_total W a b
        rcases Bool.or_eq_true_iff.1 h with h' | h'
        · exact Or.inl h'
        · exact Or.inr h'
    have hcov' : coveredBy W (pySorted (netLe W) (snVals (phase1 l.reverse []))) ip := by
      rw [hsortcov, hph1]
      exact Or.inr (hrevcov.2 hcov)
    rcases phase2go_complete _ none hsorted (by simp) hcov' with h | ⟨la, hla, _⟩
    · exact h
    · simp at hla

/-! ### Addresses and exclusion filters -/

/-- A parsed IP address with its family tag. -/
inductive IPAddr where
  | v4 (a : Nat)
  | v6 (a : Nat)
deriving DecidableEq, Repr

/-- The IPv4 excluded ranges of `IPLookup.lookup_ip` and
`IPAddressValidator.is_excluded_ip`: `10.0.0.0/8, 172.16.0.0/12,
192.168.0.0/16, 100.64.0.0/10, 127.0.0.0/8, 169.254.0.0/16, 224.0.0.0/4,
255.255.255.255/32`. -/
def ipv4ExcludedRanges : List Pfx :=
  [⟨10, 8⟩, ⟨2753, 12⟩, ⟨49320, 16⟩, ⟨401, 10⟩, ⟨127, 8⟩, ⟨43518, 16⟩,
   ⟨14, 4⟩, ⟨4294967295, 32⟩]

/-- The IPv6 excluded ranges of `IPLookup.lookup_ip`: `fc00::/7, fe80::/10,
ff00::/8, ::/128, ::1/128`. -/
def ipv6ExcludedRanges : List Pfx := [⟨126, 7⟩, ⟨1018, 10⟩, ⟨255, 8⟩, ⟨0, 128⟩, ⟨1, 128⟩]

/-- The exclusion test of `IPLookup.lookup_ip` (both families). -/
def isExcludedLookup : IPAddr → Bool
  | .v4 a => ipv4ExcludedRanges.any (fun n => memB 32 n a)
  | .v6 a => ipv6ExcludedRanges.any (fun n => memB 128 n a)

/-- `IPAddressValidator.is_excluded_ip`: its range table holds only the IPv4
ranges, and Python's version-mismatched `ip in network` returns `False`, so
every IPv6 address tests as not excluded. -/
def isExcludedIpVal : IPAddr → Bool
  | .v4 a => ipv4ExcludedRanges.any (fun n => memB 32 n a)
  | .v6 _ => false

/-- `IPAddressValidator.is_valid_ip` over a tokenized input: the token is
modelled by its parse result. -/
def isValidIpTok (tok : Option IPAddr) : Bool := tok.isSome

/-! ### Description normalization (`.split(',')[0].strip().lower()`) -/

/-- Python's default whitespace set (ASCII part). -/
def pyIsSpace (c : Char) : Bool :=
  c == ' ' || c == '\t' || c == '\n' || c == '\r' || c == '\x0b' || c == '\x0c'

/-- Python `str.split(sep)` over characters. -/
def pySplitChar (sep : Char) : List Char → List (List Char)
  | [] => [[]]
  | c :: rest =>
    match pySplitChar sep rest with
    | [] => [[]]
    | h :: t => if c == sep then [] :: h :: t else (c :: h) :: t

/-- Python `str.strip()` (ASCII whitespace model). -/
def pyStrip (l : List Char) : List Char :=
  ((l.dropWhile pyIsSpace).reverse.dropWhile pyIsSpace).reverse

/-- Python `str.lower()` on one character (ASCII model). -/
def pyCharLower (c : Char) : Char :=
  if 'A' ≤ c && c ≤ 'Z' then Char.ofNat (c.toNat + 32) else c

/-- Python `str.lower()` (ASCII model). -/
def pyLower (l : List Char) : List Char := l.map pyCharLower

/-- The code's normalization of a registry description:
`text.split(',')[0].strip().lower()`. -/
def pyNormDesc (s : String) : String :=
  String.mk (pyLower (pyStrip ((pySplitChar ',' s.toList).headD [])))

/-- The specification's normalization rule, stated as written: take the text
before the first comma, strip surrounding whitespace, and lower-case it. -/
def specNormDesc (s : String) : String :=
  String.mk (pyLower (pyStrip (s.toList.takeWhile (fun c => c != ','))))

/-- `IPLookup._whois_lookup`: on RDAP success returns the ASN together with
the normalized description; on any exception returns `None`. -/
def whoisLookup (rdap : Option (String × String)) : Option (String × String) :=
  rdap.map (fun p => (p.1, pyNormDesc p.2))

/-- `ASNLookup.get_asn_info`: like `_whois_lookup` but exceptions become an
error dictionary. -/
def getAsnInfo (rdap : Option (String × String)) : Except String (String × String) :=
  match rdap with
  | none => Except.error "whois lookup raised"
  | some p => Except.ok (p.1, pyNormDesc p.2)

/-! ### IPLookup: state, lookup, save and load -/

/-- One value of `IPLookup.asn_data`. -/
structure AsnInfo where
  description : String
  ipv4 : List Pfx
  ipv6 : List Pfx
deriving DecidableEq, Repr

/-- The in-memory state of `IPLookup`: `asn_data` plus the per-family
`subnet_cache` (association lists in dict insertion order). -/
structure IPState where
  asnData : List (String × AsnInfo)
  cache4 : List (Pfx × (String × String))
  cache6 : List (Pfx × (String × String))
deriving DecidableEq, Repr

def emptyIPState : IPState := ⟨[], [], []⟩

def lookupAsn : List (String × AsnInfo) → String → Option AsnInfo
  | [], _ => none
  | p :: rest, a => if p.1 = a then some p.2 else lookupAsn rest a

/-- Python dict assignment `cache[n] = r`: replace in place if the key is
present, else append. -/
def cacheInsert (c : List (Pfx × (String × String))) (n : Pfx) (r : String × String) :
    List (Pfx × (String × String)) :=
  if c.any (fun e => e.1 == n) then c.map (fun e => if e.1 == n then (n, r) else e)
  else c ++ [(n, r)]

def insertAll (c : List (Pfx × (String × String))) (ns : List Pfx) (r : String × String) :
    List (Pfx × (String × String)) :=
  ns.foldl (fun acc n => cacheInsert acc n r) c

/-- The linear first-match scan over a family's cache, in insertion order. -/
def firstMatch (W : Nat) (c : List (Pfx × (String × String))) (a : Nat) :
    Option (String × String) :=
  (c.find? (fun e => memB W e.1 a)).map (·.2)

/-- The cache probe of `IPLookup.lookup_ip`, partitioned by address family. -/
def cacheFind (st : IPState) : IPAddr → Option (String × String)
  | .v4 a => firstMatch 32 st.cache4 a
  | .v6 a => firstMatch 128 st.cache6 a

/-- A CIDR string received from the RIPE API, modelled by the two
observations the code makes of its text: `excludedLiteral` is whether the
stripped text is exactly one of the literal strings `"0.0.0.0/0"` / `"::/0"`
of `EXCLUDED_IPV4_PREFIXES` / `EXCLUDED_IPV6_PREFIXES`, and `parsed` is its
`ip_network` result (`none` is a `ValueError`, `inl`/`inr` a valid
IPv4/IPv6 network). A non-canonical spelling of the catch-all, such as
`"0.0.0.0/0.0.0.0"` or `"::0/0"`, has `excludedLiteral = false` yet parses
to the `/0` network. -/
structure RawCidr where
  excludedLiteral : Bool
  parsed : Option (Sum Pfx Pfx)
deriving DecidableEq, Repr

def categorizeStep (acc : List Pfx × List Pfx) (rc : RawCidr) : List Pfx × List Pfx :=
  if rc.excludedLiteral then acc
  else
    match rc.parsed with
    | none => acc
    | some (Sum.inl n) => (acc.1 ++ [n], acc.2)
    | some (Sum.inr n) => (acc.1, acc.2 ++ [n])

/-- `IPLookup._categorize_subnets`: split the response by family, skipping
entries whose raw text is one of the two literal catch-all strings (this
string comparison runs before parsing, as in the code) and entries that
fail to parse. No filter acts on the parsed value. -/
def categorize (l : List RawCidr) : List Pfx × List Pfx := l.foldl categorizeStep ([], [])

/-- The token spells the catch-all canonically, if at all: whenever its
text parses to the `/0` network, the text is one of the two literal strings
the code compares against. Canonical RIPE output satisfies this; spellings
like `"0.0.0.0/0.0.0.0"` or `"::0/0"` violate it. -/
def canonicalCatchAll (rc : RawCidr) : Prop :=
  (rc.parsed = some (Sum.inl ⟨0, 0⟩) ∨ rc.parsed = some (Sum.inr ⟨0, 0⟩)) →
    rc.excludedLiteral = true

instance (rc : RawCidr) : Decidable (canonicalCatchAll rc) := by
  unfold canonicalCatchAll
  infer_instance

/-- The observable outcome of one `IPLookup.lookup_ip` call: the returned
record, the state afterwards, and which network calls were made. -/
structure LookupOut where
  result : Option (String × String)
  state : IPState
  whoisCalled : Bool
  fetchCalled : Bool
deriving DecidableEq, Repr

/-- `IPLookup.lookup_ip`: exclusion filter, then cache scan, then WHOIS
fallback; on a fresh ASN the announced prefixes are fetched, categorized and
inserted into `asn_data` and the subnet cache. -/
def lookupIp (st : IPState) (rdap : Option (String × String)) (api : List RawCidr)
    (ip : IPAddr) : LookupOut :=
  if isExcludedLookup ip then ⟨none, st, false, false⟩
  else match cacheFind st ip with
  | some r => ⟨some r, st, false, false⟩
  | none =>
    match whoisLookup rdap with
    | none => ⟨none, st, true, false⟩
    | some (asn, desc) =>
      match lookupAsn st.asnData asn with
      | some _ => ⟨some (asn, desc), st, true, false⟩
      | none =>
        let subs := categorize api
        let st' : IPState :=
          ⟨st.asnData ++ [(asn, ⟨desc, subs.1, subs.2⟩)],
           insertAll st.cache4 subs.1 (asn, desc),
           insertAll st.cache6 subs.2 (asn, desc)⟩
        ⟨some (asn, desc), st', true, true⟩

/-- One line of the cache file written by `IPLookup.save_cache`. -/
structure CacheEntry where
  asn : String
  description : String
  ipv4 : List Pfx
  ipv6 : List Pfx
deriving DecidableEq, Repr

/-- `IPLookup._summarize_subnets`: drop the catch-all entries, then collapse
contiguous networks. -/
def summarizeSubnets (W : Nat) (l : List Pfx) : List Pfx :=
  pyCollapse W (l.filter (fun n => decide (n ≠ ⟨0, 0⟩)))

/-- `IPLookup.save_cache`: the summarized file contents. -/
def saveData (st : IPState) : List CacheEntry :=
  st.asnData.map (fun p =>
    ⟨p.1, p.2.description, summarizeSubnets 32 p.2.ipv4, summarizeSubnets 128 p.2.ipv6⟩)

/-- `IPLookup.load_cache`: rebuild `asn_data` and the subnet cache from a
cache file, in file order. -/
def loadCache (file : List CacheEntry) : IPState :=
  ⟨file.map (fun e => (e.asn, ⟨e.description, e.ipv4, e.ipv6⟩)),
   file.foldl (fun acc e => insertAll acc e.ipv4 (e.asn, e.description)) [],
   file.foldl (fun acc e => insertAll acc e.ipv6 (e.asn, e.description)) []⟩

/-- One `lookup_ip` call of a batch, with its per-call oracle data. -/
structure LookupOp where
  ip : IPAddr
  rdap : Option (String × String)
  api : List RawCidr
deriving Repr

/-- Phase 2 of `ip_parser.main`: look the collected addresses up one after
the other, threading the `IPLookup` state. -/
def lookupBatch (st : IPState) : List LookupOp → IPState × List (Option (String × String))
  | [] => (st, [])
  | op :: rest =>
    let out := lookupIp st op.rdap op.api op.ip
    let r := lookupBatch out.state rest
    (r.1, out.result :: r.2)

def runOps (st : IPState) (ops : List LookupOp) : IPState := (lookupBatch st ops).1

def noCatchPfx (n : Pfx) : Bool := decide (n ≠ ⟨0, 0⟩)

/-- No catch-all prefix is stored anywhere in the `IPLookup` state. -/
def noCatchState (st : IPState) : Bool :=
  st.asnData.all (fun p => p.2.ipv4.all noCatchPfx && p.2.ipv6.all noCatchPfx) &&
  st.cache4.all (fun e => noCatchPfx e.1) && st.cache6.all (fun e => noCatchPfx e.1)

/-! ### SubnetMapper (log_analysis pipeline) -/

/-- `SubnetMapper.subnet_asn_map`, partitioned by family. -/
structure MapperState where
  mp4 : List (Pfx × (String × String))
  mp6 : List (Pfx × (String × String))
deriving DecidableEq, Repr

def emptyMapper : MapperState := ⟨[], []⟩

/-- `add_subnets` inserts a subnet only if it is not already a key. -/
def mapInsertNew (c : List (Pfx × (String × String))) (n : Pfx) (r : String × String) :
    List (Pfx × (String × String)) :=
  if c.any (fun e => e.1 == n) then c else c ++ [(n, r)]

/-- `SubnetMapper.add_subnets`. -/
def addSubnets (mp : MapperState) (subs : List Pfx × List Pfx) (asn desc : String) :
    MapperState :=
  ⟨subs.1.foldl (fun acc n => mapInsertNew acc n (asn, desc)) mp.mp4,
   subs.2.foldl (fun acc n => mapInsertNew acc n (asn, desc)) mp.mp6⟩

/-- `SubnetMapper.find_asn_for_ip`: linear first-match scan over the address
family's subnets. -/
def findAsnForIp (mp : MapperState) : IPAddr → Option (String × String)
  | .v4 a => firstMatch 32 mp.mp4 a
  | .v6 a => firstMatch 128 mp.mp6 a

/-- `SubnetMapper.split_ipv4_ipv6`: partition by family, then sort and
collapse each family. No catch-all filtering happens here. -/
def splitIpv4Ipv6 (l : List (Sum Pfx Pfx)) : List Pfx × List Pfx :=
  (pyCollapse 32 (pySorted (netLe 32)
      (l.filterMap (fun s => match s with | Sum.inl n => some n | _ => none))),
   pyCollapse 128 (pySorted (netLe 128)
      (l.filterMap (fun s => match s with | Sum.inr n => some n | _ => none))))

/-- `SubnetMapper.fetch_subnets`: return the cached subnets of the ASN when
any exist, otherwise query the RIPE API (`none` models a non-200 status or a
raised exception) and split the prefixes by family. -/
def fetchSubnetsMapper (mp : MapperState) (asn : String)
    (api : Option (List (Sum Pfx Pfx))) : List Pfx × List Pfx :=
  let cached4 := (mp.mp4.filter (fun e => e.2.1 == asn)).map (·.1)
  let cached6 := (mp.mp6.filter (fun e => e.2.1 == asn)).map (·.1)
  if !cached4.isEmpty || !cached6.isEmpty then (cached4, cached6)
  else
    match api with
    | none => ([], [])
    | some l => splitIpv4Ipv6 l

/-! ### SubnetMapper.search_ip_with_threads -/

/-- `chunk_size = len(subnets) // thread_count or 1`. -/
def chunkSize (n tc : Nat) : Nat := if n / tc = 0 then 1 else n / tc

/-- Slice a list into chunks of `c` (fueled structural recursion). -/
def chunksOfF {A : Type} : Nat → Nat → List A → List (List A)
  | 0, _, _ => []
  | _ + 1, _, [] => []
  | fuel + 1, c, l => l.take c :: chunksOfF fuel c (l.drop c)

/-- `subnet_chunks = [subnets[i:i+chunk_size] for i in range(0, len(subnets), chunk_size)]`. -/
def chunksOf {A : Type} (c : Nat) (l : List A) : List (List A) := chunksOfF l.length c l

theorem chunksOfF_flatten {A : Type} :
    ∀ (fuel c : Nat) (l : List A), c ≠ 0 → l.length ≤ fuel →
      (chunksOfF fuel c l).flatten = l := by
  intro fuel
  induction fuel with
  | zero =>
    intro c l _ hlen
    have : l = [] := List.eq_nil_of_length_eq_zero (by omega)
    simp [this, chunksOfF]
  | succ fuel ih =>
    intro c l hc hlen
    match l with
    | [] => simp [chunksOfF]
    | x :: rest =>
      have hred : chunksOfF (fuel + 1) c (x :: rest) =
          (x :: rest).take c :: chunksOfF fuel c ((x :: rest).drop c) := rfl
      rw [hred, List.flatten_cons, ih c _ hc]
      · exact List.take_append_drop c (x :: rest)
      · simp only [List.length_drop, List.length_cons] at *
        omega

theorem chunksOf_flatten {A : Type} (c : Nat) (l : List A) (hc : c ≠ 0) :
    (chunksOf c l).flatten = l :=
  chunksOfF_flatten l.length c l hc (Nat.le_refl _)

/-- The early-exit chunk scan: a chunk whose worker observed the shared
`match_found` event before reaching its first matching subnet returns
`None` (`sched i = true` means worker `i` was preempted this way); the main
thread collects the futures in chunk-index order and returns the first
non-`None` result. -/
def psGo (W a : Nat) (sched : Nat → Bool) :
    List (List (Pfx × (String × String))) → Nat → Option (String × String)
  | [], _ => none
  | ck :: rest, i =>
    match (if sched i then none else firstMatch W ck a) with
    | some r => some r
    | none => psGo W a sched rest (i + 1)

/-- `SubnetMapper.search_ip_with_threads`, with the thread interleaving
abstracted into the preemption schedule `sched`. -/
def searchWithThreads (mp : MapperState) (ip : IPAddr) (tc : Nat) (sched : Nat → Bool) :
    Option (String × String) :=
  match ip with
  | .v4 a => psGo 32 a sched (chunksOf (chunkSize mp.mp4.length tc) mp.mp4) 0
  | .v6 a => psGo 128 a sched (chunksOf (chunkSize mp.mp6.length tc) mp.mp6) 0

/-- A schedule that can really happen: the `match_found` event a preempted
worker observed was set by some worker that did find a match and was not
itself preempted. -/
def ValidSched (W a : Nat) (chunks : List (List (Pfx × (String × String))))
    (sched : Nat → Bool) : Prop :=
  ∀ i < chunks.length, sched i = true →
    ∃ j < chunks.length, sched j = false ∧ firstMatch W (chunks.getD j []) a ≠ none

theorem psGo_all_live {W a : Nat} {sched : Nat → Bool} (hs : ∀ i, sched i = false) :
    ∀ (chunks : List (List (Pfx × (String × String)))) (i0 : Nat),
      psGo W a sched chunks i0 = firstMatch W chunks.flatten a := by
  intro chunks
  induction chunks with
  | nil => intro i0; simp [psGo, firstMatch]
  | cons ck rest ih =>
    intro i0
    rw [psGo, hs i0, List.flatten_cons]
    unfold firstMatch
    rw [List.find?_append]
    cases h : List.find? (fun e => memB W e.1 a) ck with
    | some r => simp [firstMatch, h]
    | none =>
      simp only [h, Option.none_or]
      have := ih (i0 + 1)
      unfold firstMatch at this
      simpa [h, firstMatch] using this

theorem psGo_eq_none_iff {W a : Nat} {sched : Nat → Bool} :
    ∀ (chunks : List (List (Pfx × (String × String)))) (i0 : Nat),
      (psGo W a sched chunks i0 = none ↔
        ∀ k < chunks.length, sched (i0 + k) = true ∨ firstMatch W (chunks.getD k []) a = none) := by
  intro chunks
  induction chunks with
  | nil => intro i0; simp [psGo]
  | cons ck rest ih =>
    intro i0
    rw [psGo]
    by_cases hs : sched i0
    · rw [if_pos hs]
      show psGo W a sched rest (i0 + 1) = none ↔ _
      rw [ih (i0 + 1)]
      constructor
      · intro h k hk
        match k with
        | 0 => exact Or.inl (by simpa using hs)
        | k' + 1 =>
          have := h k' (by simpa using Nat.lt_of_succ_lt_succ hk)
          rcases this with h' | h'
          · exact Or.inl (by rw [← h']; congr 1; omega)
          · exact Or.inr (by simpa using h')
      · intro h k hk
        have := h (k + 1) (by simpa using Nat.succ_lt_succ hk)
        rcases this with h' | h'
        · exact Or.inl (by rw [← h']; congr 1; omega)
        · exact Or.inr (by simpa using h')
    · simp only [Bool.not_eq_true] at hs
      rw [if_neg (by simp [hs])]
      cases hm : firstMatch W ck a with
      | some r =>
        constructor
        · intro h; exact absurd h (by simp)
        · intro h
          have := h 0 (by simp)
          simp [hs, hm] at this
      | none =>
        show psGo W a sched rest (i0 + 1) = none ↔ _
        rw [ih (i0 + 1)]
        constructor
        · intro h k hk
          match k with
          | 0 => exact Or.inr (by simpa using hm)
          | k' + 1 =>
            have := h k' (by simpa using Nat.lt_of_succ_lt_succ hk)
            rcases this with h' | h'
            · exact Or.inl (by rw [← h']; congr 1; omega)
            · exact Or.inr (by simpa using h')
        · intro h k hk
          have := h (k + 1) (by simpa using Nat.succ_lt_succ hk)
          rcases this with h' | h'
          · exact Or.inl (by rw [← h']; congr 1; omega)
          · exact Or.inr (by simpa using h')

/-- Under a valid schedule the chunked search finds a record exactly when
the flattened list has a matching subnet. -/
theorem psGo_none_iff_flatten {W a : Nat} {sched : Nat → Bool}
    {chunks : List (List (Pfx × (String × String)))}
    (hv : ValidSched W a chunks sched) :
    psGo W a sched chunks 0 = none ↔ firstMatch W chunks.flatten a = none := by
  have hall : (∀ k < chunks.length, firstMatch W (chunks.getD k []) a = none) ↔
      firstMatch W chunks.flatten a = none := by
    unfold firstMatch
    simp only [Option.map_eq_none', List.find?_eq_none]
    constructor
    · intro h e he hm
      rcases List.mem_flatten.1 he with ⟨ck, hck, hcke⟩
      rcases List.mem_iff_getElem.1 hck with ⟨k, hk, hget⟩
      have := h k hk
      rw [List.getD_eq_getElem?_getD, List.getElem?_eq_getElem hk] at this
      simp only [Option.getD_some] at this
      exact this e (hget ▸ hcke) hm
    · intro h k hk e he hm
      rw [List.getD_eq_getElem?_getD, List.getElem?_eq_getElem hk] at he
      simp only [Option.getD_some] at he
      refine h e ?_ hm
      exact List.mem_flatten.2 ⟨_, List.getElem_mem hk, he⟩
  rw [psGo_eq_none_iff chunks 0]
  constructor
  · intro h
    rw [← hall]
    intro k hk
    rcases h k hk with h' | h'
    · rcases hv k hk (by simpa using h') with ⟨j, hj, hjf, hjm⟩
      rcases h j hj with h'' | h''
      · rw [Nat.zero_add] at h''
        rw [hjf] at h''
        exact absurd h'' (by simp)
      · exact absurd h'' hjm
    · exact h'
  · intro h k hk
    exact Or.inr ((hall.2 h) k hk)

end SyrupShroud

namespace SyrupShroud

/-! ### DataAggregator -/

/-- The per-(ASN, description) record of `DataAggregator.asn_ip_counter`. -/
structure AggData (ι : Type) where
  ips : List ι
  samples : List ι
  total : Nat
deriving DecidableEq, Repr

/-- `collections.deque(maxlen=3).append`: drop the oldest element when
full. -/
def dequeAppend3 {ι : Type} (l : List ι) (x : ι) : List ι :=
  if l.length < 3 then l ++ [x] else l.tail ++ [x]

/-- `DataAggregator.asn_ip_counter` (a defaultdict in insertion order). -/
abbrev AggState (ι : Type) : Type := List ((String × String) × AggData ι)

def aggFind {ι : Type} : AggState ι → String × String → Option (AggData ι)
  | [], _ => none
  | p :: rest, k => if p.1 = k then some p.2 else aggFind rest k

def updAggData {ι : Type} [DecidableEq ι] (d : AggData ι) (ip : ι) : AggData ι :=
  if ip ∈ d.ips then { d with total := d.total + 1 }
  else ⟨d.ips ++ [ip], dequeAppend3 d.samples ip, d.total + 1⟩

/-- `DataAggregator.add_entry`. -/
def addEntry {ι : Type} [DecidableEq ι] (ag : AggState ι) (asn desc : String) (ip : ι) :
    AggState ι :=
  if (aggFind ag (asn, desc)).isSome then
    ag.map (fun p => if p.1 = (asn, desc) then (p.1, updAggData p.2 ip) else p)
  else ag ++ [((asn, desc), updAggData ⟨[], [], 0⟩ ip)]

/-- One row of `DataAggregator.summarize`. -/
structure SummaryRow where
  asn : String
  description : String
  ipCount : Nat
  totalEntries : Nat
  sampleIps : String
deriving DecidableEq, Repr

/-- `DataAggregator.summarize`: build the rows in counter order and sort by
the requested key, descending, stable. -/
def summarize (ag : AggState String) (sortBy : String) : List SummaryRow :=
  let rows : List SummaryRow := ag.map (fun p =>
    ⟨p.1.1, p.1.2, p.2.ips.length, p.2.total, String.intercalate ", " p.2.samples⟩)
  if sortBy = "IP Count" then
    pySorted (fun x y =>
      decide (y.ipCount < x.ipCount ∨ (x.ipCount = y.ipCount ∧ y.totalEntries ≤ x.totalEntries))) rows
  else if sortBy = "Total Entries" then
    pySorted (fun x y =>
      decide (y.totalEntries < x.totalEntries ∨ (x.totalEntries = y.totalEntries ∧ y.ipCount ≤ x.ipCount))) rows
  else rows

/-! ### IPValidator (ip_parser pipeline) and the log-processing loop -/

/-- The mutable counter of `IPValidator`. -/
structure ValState where
  invalidCount : Nat
deriving DecidableEq, Repr

/-- `IPValidator.validate_ip`: classify the token; on a parse failure bump
the counter and raise `ValueError` once it reaches 2. -/
def validateIp (s : ValState) (tok : Option IPAddr) :
    Except String ((Bool × Option String) × ValState) :=
  match tok with
  | some (.v4 _) => Except.ok ((true, some "IPv4"), s)
  | some (.v6 _) => Except.ok ((true, some "IPv6"), s)
  | none =>
    if s.invalidCount + 1 ≥ 2 then
      Except.error "Could not find any valid IP addresses in the initial data"
    else Except.ok ((false, none), ⟨s.invalidCount + 1⟩)

/-- Run `validate_ip` over a token stream; a raised exception aborts the
whole batch (it propagates to `ip_parser.main`'s fatal handler). -/
def runValidator (s : ValState) : List (Option IPAddr) → Except String ValState
  | [] => Except.ok s
  | t :: rest =>
    match validateIp s t with
    | Except.error e => Except.error e
    | Except.ok (_, s') => runValidator s' rest

/-- One log-line token of `LogProcessor.process_log`, with its per-call
oracle data. -/
structure LogOp where
  tok : Option IPAddr
  rdap : Option (String × String)
  api : Option (List (Sum Pfx Pfx))
deriving Repr

/-- The outcome of processing one token. -/
structure LogStepOut where
  mapper : MapperState
  agg : AggState IPAddr
  whoisCalled : Bool

/-- One iteration of `LogProcessor.process_log`'s loop, from the point where
the candidate token has been extracted. -/
def logStep (mp : MapperState) (ag : AggState IPAddr) (op : LogOp) : LogStepOut :=
  match op.tok with
  | none => ⟨mp, ag, false⟩
  | some ip =>
    if isExcludedIpVal ip then ⟨mp, ag, false⟩
    else
      match findAsnForIp mp ip with
      | some r => ⟨mp, addEntry ag r.1 r.2 ip, false⟩
      | none =>
        match getAsnInfo op.rdap with
        | Except.error _ => ⟨mp, ag, true⟩
        | Except.ok (asn, desc) =>
          let subs := fetchSubnetsMapper mp asn op.api
          ⟨addSubnets mp subs asn desc, addEntry ag asn desc ip, true⟩

/-- The whole loop of `LogProcessor.process_log`. -/
def runLog (mp : MapperState) (ag : AggState IPAddr) :
    List LogOp → MapperState × AggState IPAddr
  | [] => (mp, ag)
  | op :: rest =>
    let out := logStep mp ag op
    runLog out.mapper out.agg rest

/-! ### DBManager -/

/-- The on-disk cache file as seen by `DBManager.load_database`:
missing, structurally malformed (wrong shape, bad date, bad JSON), or
present with a parsed `last_updated` timestamp (seconds) and entries whose
subnets are modelled post-parse. -/
inductive DBFile where
  | absent
  | malformed
  | present (lastUpdated : Option Int) (entries : List (String × String × List (Option Pfx)))
deriving Repr

structure Database where
  lastUpdated : Option Int
  data : List (String × String × List Pfx)
deriving DecidableEq, Repr

/-- `{"last_updated": None, "data": {}}`. -/
def initialDatabase : Database := ⟨none, []⟩

/-- `MAX_DB_AGE_DAYS = 30`, in seconds. -/
def maxDbAgeSeconds : Int := 30 * 86400

def parseSubnets : List (Option Pfx) → Option (List Pfx)
  | [] => some []
  | none :: _ => none
  | some n :: rest => (parseSubnets rest).map (n :: ·)

def parseEntries : List (String × String × List (Option Pfx)) →
    Option (List (String × String × List Pfx))
  | [] => some []
  | (a, d, subs) :: rest =>
    match parseSubnets subs, parseEntries rest with
    | some s, some r => some ((a, d, s) :: r)
    | _, _ => none

/-- `DBManager.load_database`: no file keeps the empty structure; malformed
data is fatal; a file older than the maximum age is discarded wholesale and
the empty structure kept; otherwise the subnets are parsed (a bad subnet is
fatal) and the database replaced. -/
def loadDatabase (now : Int) (f : DBFile) : Except String Database :=
  match f with
  | .absent => Except.ok initialDatabase
  | .malformed => Except.error "Error loading database"
  | .present lu entries =>
    match lu with
    | none => Except.error "Error loading database"
    | some lu =>
      if now - lu > maxDbAgeSeconds then Except.ok initialDatabase
      else
        match parseEntries entries with
        | none => Except.error "Error loading database"
        | some data => Except.ok ⟨some lu, data⟩

/-! ### Helper lemmas for the claim theorems -/

/-- Replace the cache of the *other* address family. -/
def setOtherCache (st : IPState) (ip : IPAddr) (c : List (Pfx × (String × String))) : IPState :=
  match ip with
  | .v4 _ => { st with cache6 := c }
  | .v6 _ => { st with cache4 := c }

theorem cacheFind_setOtherCache (st : IPState) (ip : IPAddr)
    (c : List (Pfx × (String × String))) :
    cacheFind (setOtherCache st ip c) ip = cacheFind st ip := by
  cases ip <;> rfl

theorem lookupIp_none_state (st : IPState) (api : List RawCidr) (ip : IPAddr) :
    (lookupIp st none api ip).state = st := by
  unfold lookupIp
  by_cases h : isExcludedLookup ip
  · rw [if_pos h]
  · rw [if_neg h]
    cases hc : cacheFind st ip <;> rfl

theorem lookupBatch_append (l1 l2 : List LookupOp) :
    ∀ st : IPState, lookupBatch st (l1 ++ l2) =
      ((lookupBatch (lookupBatch st l1).1 l2).1,
       (lookupBatch st l1).2 ++ (lookupBatch (lookupBatch st l1).1 l2).2) := by
  induction l1 with
  | nil => intro st; simp [lookupBatch]
  | cons op rest ih =>
    intro st
    show lookupBatch st (op :: (rest ++ l2)) = _
    rw [lookupBatch]
    rw [ih]
    rw [show lookupBatch st (op :: rest) =
      (let out := lookupIp st op.rdap op.api op.ip
       let r := lookupBatch out.state rest
       (r.1, out.result :: r.2)) from rfl]
    simp

theorem lookupAsn_append_self (l : List (String × AsnInfo)) (a : String) (i : AsnInfo) :
    lookupAsn l a = none → lookupAsn (l ++ [(a, i)]) a = some i := by
  induction l with
  | nil => intro _; simp [lookupAsn]
  | cons p rest ih =>
    intro h
    rw [lookupAsn] at h
    by_cases hp : p.1 = a
    · rw [if_pos hp] at h
      exact absurd h (by simp)
    · rw [if_neg hp] at h
      show lookupAsn (p :: (rest ++ [(a, i)])) a = some i
      rw [lookupAsn, if_neg hp]
      exact ih h

theorem pySplitChar_ne_nil (sep : Char) (l : List Char) : pySplitChar sep l ≠ [] := by
  cases l with
  | nil => simp [pySplitChar]
  | cons c rest =>
    rw [pySplitChar]
    cases h : pySplitChar sep rest with
    | nil => simp
    | cons a t => by_cases hc : c == sep <;> simp [hc]

theorem pySplitChar_headD (sep : Char) (l : List Char) :
    (pySplitChar sep l).headD [] = l.takeWhile (fun c => c != sep) := by
  induction l with
  | nil => rfl
  | cons c rest ih =>
    rw [pySplitChar]
    cases h : pySplitChar sep rest with
    | nil => exact absurd h (pySplitChar_ne_nil sep rest)
    | cons hd t =>
      rw [h] at ih
      simp only [List.headD_cons] at ih
      by_cases hc : c == sep
      · have hbne : (c != sep) = false := by simpa using hc
        simp [hc, List.takeWhile_cons, hbne]
      · have hbne : (c != sep) = true := by simpa using hc
        simp [hc, List.takeWhile_cons, hbne, ih]

theorem pyNormDesc_eq_specNormDesc (s : String) : pyNormDesc s = specNormDesc s := by
  unfold pyNormDesc specNormDesc
  rw [pySplitChar_headD]

/-- A non-excluded, cache-missing address whose WHOIS succeeds with a fresh
ASN: the full update path of `lookup_ip`, spelled out. -/
theorem lookupIp_miss_new (st : IPState) (api : List RawCidr) (ip : IPAddr)
    (asn rawd : String)
    (h1 : isExcludedLookup ip = false) (h2 : cacheFind st ip = none)
    (h3 : lookupAsn st.asnData asn = none) :
    lookupIp st (some (asn, rawd)) api ip =
      ⟨some (asn, pyNormDesc rawd),
       ⟨st.asnData ++ [(asn, ⟨pyNormDesc rawd, (categorize api).1, (categorize api).2⟩)],
        insertAll st.cache4 (categorize api).1 (asn, pyNormDesc rawd),
        insertAll st.cache6 (categorize api).2 (asn, pyNormDesc rawd)⟩, true, true⟩ := by
  have hstep : lookupIp st (some (asn, rawd)) api ip =
      (match lookupAsn st.asnData asn with
       | some _ => (⟨some (asn, pyNormDesc rawd), st, true, false⟩ : LookupOut)
       | none =>
         (⟨some (asn, pyNormDesc rawd),
           ⟨st.asnData ++ [(asn, ⟨pyNormDesc rawd, (categorize api).1, (categorize api).2⟩)],
            insertAll st.cache4 (categorize api).1 (asn, pyNormDesc rawd),
            insertAll st.cache6 (categorize api).2 (asn, pyNormDesc rawd)⟩, true, true⟩ :
           LookupOut)) := by
    unfold lookupIp
    rw [if_neg (by simp [h1]), h2]
    rfl
  rw [hstep, h3]

/-! ### Claim theorems -/

/-- C1, counterexample: `fe80::1` lies in the claimed excluded range
`fe80::/10`, but `IPAddressValidator.is_excluded_ip` reports it as not
excluded (its table has only the IPv4 ranges), so the log-analysis pipeline
carries on and invokes the WHOIS registry client for it. -/
theorem c1Counterexample :
    memB 128 ⟨1018, 10⟩ (65152 * 2 ^ 112 + 1) = true ∧
    (⟨1018, 10⟩ : Pfx) ∈ ipv6ExcludedRanges ∧
    isExcludedIpVal (.v6 (65152 * 2 ^ 112 + 1)) = false ∧
    (logStep emptyMapper [] ⟨some (.v6 (65152 * 2 ^ 112 + 1)), some ("64512", "X"), some []⟩).whoisCalled = true := by
  refine ⟨by decide, by decide, by decide, ?_⟩
  rfl

/-- C1 (amended): in `IPLookup.lookup_ip`, the exclusion check — covering
both the IPv4 and the IPv6 fixed ranges — runs before the cache scan and
before any registry call: an excluded address resolves to `None` with the
state unchanged and no WHOIS or prefix-fetch call made, whatever the cache
holds and whatever the oracles would answer. -/
theorem c1ExcludedLookup (st : IPState) (rdap : Option (String × String))
    (api : List RawCidr) (ip : IPAddr) (h : isExcludedLookup ip = true) :
    lookupIp st rdap api ip = ⟨none, st, false, false⟩ := by
  unfold lookupIp
  rw [if_pos h]

/-- C1, witness: `10.1.2.3` and `fe80::1` are excluded and resolve to `None`
without touching state or network. -/
theorem c1Witness :
    isExcludedLookup (.v4 167838211) = true ∧
    lookupIp emptyIPState (some ("64512", "X")) [] (.v4 167838211) =
      ⟨none, emptyIPState, false, false⟩ ∧
    isExcludedLookup (.v6 (65152 * 2 ^ 112 + 1)) = true ∧
    lookupIp emptyIPState (some ("64512", "X")) [] (.v6 (65152 * 2 ^ 112 + 1)) =
      ⟨none, emptyIPState, false, false⟩ :=
  ⟨by decide, c1ExcludedLookup _ _ _ _ (by decide), by decide,
   c1ExcludedLookup _ _ _ _ (by decide)⟩

/-- C2: for a non-excluded address whose family cache has a matching subnet,
`lookup_ip` returns the record of the first matching subnet in insertion
order, leaves the state unchanged, makes no WHOIS and no prefix-fetch call —
and only the subnets of the address's own family matter: rewriting the other
family's cache arbitrarily changes nothing. -/
theorem c2CacheHit (st : IPState) (rdap : Option (String × String)) (api : List RawCidr)
    (ip : IPAddr) (r : String × String) (c : List (Pfx × (String × String)))
    (h1 : isExcludedLookup ip = false) (h2 : cacheFind st ip = some r) :
    lookupIp st rdap api ip = ⟨some r, st, false, false⟩ ∧
    lookupIp (setOtherCache st ip c) rdap api ip =
      ⟨some r, setOtherCache st ip c, false, false⟩ := by
  constructor
  · unfold lookupIp
    rw [if_neg (by simp [h1]), h2]
  · unfold lookupIp
    rw [if_neg (by simp [h1]), cacheFind_setOtherCache, h2]

/-- C2, witness: `8.8.8.8` hits a cached `8.0.0.0/8` entry. -/
theorem c2Witness :
    isExcludedLookup (.v4 134744072) = false ∧
    cacheFind ⟨[], [(⟨8, 8⟩, ("64501", "demo"))], []⟩ (.v4 134744072) =
      some ("64501", "demo") ∧
    lookupIp ⟨[], [(⟨8, 8⟩, ("64501", "demo"))], []⟩ none [] (.v4 134744072) =
      ⟨some ("64501", "demo"), ⟨[], [(⟨8, 8⟩, ("64501", "demo"))], []⟩, false, false⟩ :=
  ⟨by decide, by decide,
   (c2CacheHit _ none [] _ _ [] (by decide) (by decide)).1⟩

/-- C4: a failed WHOIS reverse lookup (the oracle answers `none`, covering
timeouts, error statuses, decode errors and not-found, all of which
`_whois_lookup` turns into `None`) makes resolution return `None` with the
WHOIS call recorded, no prefix fetch, and the state — subnet index and ASN
data — bit-for-bit unchanged (no negative caching; `IPLookup` holds no dirty
flag, and the whole state is untouched); and in a batch the failing address
leaves the processing of every other address unchanged. -/
theorem c4LookupFailure :
    (∀ (st : IPState) (api : List RawCidr) (ip : IPAddr),
        isExcludedLookup ip = false → cacheFind st ip = none →
        lookupIp st none api ip = ⟨none, st, true, false⟩) ∧
    (∀ (st : IPState) (api : List RawCidr) (ip : IPAddr),
        (lookupIp st none api ip).state = st) ∧
    (∀ (st : IPState) (ops1 ops2 : List LookupOp) (ip : IPAddr) (api : List RawCidr),
        lookupBatch st (ops1 ++ ⟨ip, none, api⟩ :: ops2) =
          ((lookupBatch (lookupBatch st ops1).1 ops2).1,
           (lookupBatch st ops1).2 ++
             (lookupIp (lookupBatch st ops1).1 none api ip).result ::
               (lookupBatch (lookupBatch st ops1).1 ops2).2)) := by
  refine ⟨?_, lookupIp_none_state, ?_⟩
  · intro st api ip h1 h2
    unfold lookupIp
    rw [if_neg (by simp [h1]), h2]
    rfl
  · intro st ops1 ops2 ip api
    rw [lookupBatch_append]
    rw [show lookupBatch (lookupBatch st ops1).1 (⟨ip, none, api⟩ :: ops2) =
      (let out := lookupIp (lookupBatch st ops1).1 none api ip
       let r := lookupBatch out.state ops2
       (r.1, out.result :: r.2)) from rfl]
    simp only [lookupIp_none_state]

/-- C4, witness: a cache-missing, non-excluded address with a failing
registry resolves to `None` with the state unchanged. -/
theorem c4Witness :
    isExcludedLookup (.v4 134744072) = false ∧
    cacheFind emptyIPState (.v4 134744072) = none ∧
    lookupIp emptyIPState none [] (.v4 134744072) = ⟨none, emptyIPState, true, false⟩ :=
  ⟨by decide, by decide, c4LookupFailure.1 emptyIPState [] _ (by decide) (by decide)⟩

/-- C5: the stored ASN description is exactly the spec's normalization —
text before the first comma, stripped, lower-cased: the code's
`split(',')[0].strip().lower()` chain equals the spec rule on every string;
both components that record a description (`IPLookup._whois_lookup` and
`ASNLookup.get_asn_info`) apply it; and a fresh resolution stores the
normalized text in `asn_data`. -/
theorem c5DescNormalization :
    (∀ s : String, pyNormDesc s = specNormDesc s) ∧
    (∀ a d : String, whoisLookup (some (a, d)) = some (a, specNormDesc d)) ∧
    (∀ a d : String, getAsnInfo (some (a, d)) = Except.ok (a, specNormDesc d)) ∧
    (∀ (st : IPState) (api : List RawCidr) (ip : IPAddr) (asn rawd : String),
        isExcludedLookup ip = false → cacheFind st ip = none →
        lookupAsn st.asnData asn = none →
        lookupAsn (lookupIp st (some (asn, rawd)) api ip).state.asnData asn =
          some ⟨specNormDesc rawd, (categorize api).1, (categorize api).2⟩) := by
  refine ⟨pyNormDesc_eq_specNormDesc, ?_, ?_, ?_⟩
  · intro a d
    unfold whoisLookup
    rw [Option.map_some']
    rw [pyNormDesc_eq_specNormDesc]
  · intro a d
    show Except.ok (a, pyNormDesc d) = Except.ok (a, specNormDesc d)
    rw [pyNormDesc_eq_specNormDesc]
  · intro st api ip asn rawd h1 h2 h3
    rw [lookupIp_miss_new st api ip asn rawd h1 h2 h3]
    show lookupAsn (st.asnData ++
      [(asn, ⟨pyNormDesc rawd, (categorize api).1, (categorize api).2⟩)]) asn = _
    rw [lookupAsn_append_self _ _ _ h3, pyNormDesc_eq_specNormDesc]

/-- C5, witness: a concrete resolution stores `"as one"` for
`"  AS One, Inc. "`. -/
theorem c5Witness :
    isExcludedLookup (.v4 134744072) = false ∧
    cacheFind emptyIPState (.v4 134744072) = none ∧
    lookupAsn emptyIPState.asnData "64501" = none ∧
    lookupAsn (lookupIp emptyIPState (some ("64501", "  AS One, Inc. ")) []
        (.v4 134744072)).state.asnData "64501" =
      some ⟨specNormDesc "  AS One, Inc. ", [], []⟩ :=
  ⟨by decide, by decide, by decide,
   c5DescNormalization.2.2.2 emptyIPState [] _ "64501" "  AS One, Inc. "
     (by decide) (by decide) (by decide)⟩

/-- C6: a structurally valid cache file whose `last_updated` lies more than
30 days before the load time is discarded wholesale: `load_database` keeps
the initial empty structure (`last_updated = None`, no entries) and reports
success, not an error, whatever the file's entries contain. -/
theorem c6StaleDiscard (now lu : Int)
    (entries : List (String × String × List (Option Pfx)))
    (h : now - lu > maxDbAgeSeconds) :
    loadDatabase now (.present (some lu) entries) = Except.ok initialDatabase := by
  have hred : loadDatabase now (.present (some lu) entries) =
      if now - lu > maxDbAgeSeconds then Except.ok initialDatabase
      else
        match parseEntries entries with
        | none => Except.error "Error loading database"
        | some data => Except.ok ⟨some lu, data⟩ := rfl
  rw [hred, if_pos h]

/-- C6, witness: a file last updated 31 days ago, with valid entries, loads
as the empty database. -/
theorem c6Witness :
    ((31 * 86400 : Int) - 0 > maxDbAgeSeconds) ∧
    loadDatabase (31 * 86400) (.present (some 0) [("64501", "demo", [some ⟨8, 8⟩])]) =
      Except.ok initialDatabase :=
  ⟨by decide, c6StaleDiscard (31 * 86400) 0 _ (by decide)⟩


theorem noCatch_categorize (l : List RawCidr)
    (hl : ∀ rc ∈ l, canonicalCatchAll rc) :
    (categorize l).1.all noCatchPfx = true ∧ (categorize l).2.all noCatchPfx = true := by
  unfold categorize
  suffices h : ∀ (l0 : List RawCidr), (∀ rc ∈ l0, canonicalCatchAll rc) →
      ∀ acc : List Pfx × List Pfx,
      acc.1.all noCatchPfx = true → acc.2.all noCatchPfx = true →
      (l0.foldl categorizeStep acc).1.all noCatchPfx = true ∧
        (l0.foldl categorizeStep acc).2.all noCatchPfx = true by
    exact h l hl ([], []) rfl rfl
  intro l0
  induction l0 with
  | nil => intro _ acc h1 h2; exact ⟨h1, h2⟩
  | cons rc rest ih =>
    intro hcanon acc h1 h2
    have hrc : canonicalCatchAll rc := hcanon rc (List.mem_cons_self _ _)
    have hrest : ∀ r ∈ rest, canonicalCatchAll r :=
      fun r hr => hcanon r (List.mem_cons_of_mem _ hr)
    rw [List.foldl_cons]
    by_cases hex : rc.excludedLiteral
    · rw [show categorizeStep acc rc = acc from by
        unfold categorizeStep; rw [if_pos hex]]
      exact ih hrest acc h1 h2
    · have hcs : categorizeStep acc rc =
          (match rc.parsed with
           | none => acc
           | some (Sum.inl n) => (acc.1 ++ [n], acc.2)
           | some (Sum.inr n) => (acc.1, acc.2 ++ [n])) := by
        unfold categorizeStep; rw [if_neg hex]
      rw [hcs]
      cases hp : rc.parsed with
      | none => exact ih hrest acc h1 h2
      | some sn =>
        cases sn with
        | inl n =>
          have hn : n ≠ (⟨0, 0⟩ : Pfx) := by
            intro hn0
            exact hex (hrc (Or.inl (by rw [hp, hn0])))
          refine ih hrest (acc.1 ++ [n], acc.2) ?_ h2
          show (acc.1 ++ [n]).all noCatchPfx = true
          rw [List.all_append, h1, Bool.true_and, List.all_cons]
          simp [noCatchPfx, hn]
        | inr n =>
          have hn : n ≠ (⟨0, 0⟩ : Pfx) := by
            intro hn0
            exact hex (hrc (Or.inr (by rw [hp, hn0])))
          refine ih hrest (acc.1, acc.2 ++ [n]) h1 ?_
          show (acc.2 ++ [n]).all noCatchPfx = true
          rw [List.all_append, h2, Bool.true_and, List.all_cons]
          simp [noCatchPfx, hn]

theorem noCatch_cacheInsert {c : List (Pfx × (String × String))} {n : Pfx}
    {r : String × String}
    (hc : c.all (fun e => noCatchPfx e.1) = true) (hn : noCatchPfx n = true) :
    (cacheInsert c n r).all (fun e => noCatchPfx e.1) = true := by
  unfold cacheInsert
  split
  · rw [List.all_eq_true] at hc ⊢
    intro e he
    rcases List.mem_map.1 he with ⟨e0, he0, heq⟩
    by_cases h : e0.1 == n
    · rw [if_pos h] at heq
      rw [← heq]
      exact hn
    · rw [if_neg h] at heq
      rw [← heq]
      exact hc e0 he0
  · rw [List.all_append, hc, Bool.true_and, List.all_cons]
    simp [hn]

theorem noCatch_insertAll {ns : List Pfx} :
    ∀ {c : List (Pfx × (String × String))} {r : String × String},
      c.all (fun e => noCatchPfx e.1) = true → ns.all noCatchPfx = true →
      (insertAll c ns r).all (fun e => noCatchPfx e.1) = true := by
  induction ns with
  | nil => intro c r hc _; exact hc
  | cons n rest ih =>
    intro c r hc hns
    rw [List.all_cons] at hns
    have h1 := (Bool.and_eq_true_iff.1 hns).1
    have h2 := (Bool.and_eq_true_iff.1 hns).2
    show (insertAll (cacheInsert c n r) rest r).all (fun e => noCatchPfx e.1) = true
    exact ih (noCatch_cacheInsert hc h1) h2

/-- A non-excluded, cache-missing address whose WHOIS succeeds with an ASN
already present in `asn_data`: `lookup_ip` returns the fresh WHOIS record
without fetching prefixes and without touching the state. -/
theorem lookupIp_known (st : IPState) (api : List RawCidr) (ip : IPAddr)
    (asn rawd : String) (i : AsnInfo)
    (h1 : isExcludedLookup ip = false) (h2 : cacheFind st ip = none)
    (h3 : lookupAsn st.asnData asn = some i) :
    lookupIp st (some (asn, rawd)) api ip = ⟨some (asn, pyNormDesc rawd), st, true, false⟩ := by
  have hstep : lookupIp st (some (asn, rawd)) api ip =
      (match lookupAsn st.asnData asn with
       | some _ => (⟨some (asn, pyNormDesc rawd), st, true, false⟩ : LookupOut)
       | none =>
         (⟨some (asn, pyNormDesc rawd),
           ⟨st.asnData ++ [(asn, ⟨pyNormDesc rawd, (categorize api).1, (categorize api).2⟩)],
            insertAll st.cache4 (categorize api).1 (asn, pyNormDesc rawd),
            insertAll st.cache6 (categorize api).2 (asn, pyNormDesc rawd)⟩, true, true⟩ :
           LookupOut)) := by
    unfold lookupIp
    rw [if_neg (by simp [h1]), h2]
    rfl
  rw [hstep, h3]

theorem noCatch_lookupIp (st : IPState) (rdap : Option (String × String))
    (api : List RawCidr) (ip : IPAddr)
    (hapi : ∀ rc ∈ api, canonicalCatchAll rc) (h : noCatchState st = true) :
    noCatchState (lookupIp st rdap api ip).state = true := by
  by_cases he : isExcludedLookup ip
  · rw [show lookupIp st rdap api ip = ⟨none, st, false, false⟩ from by
      unfold lookupIp; rw [if_pos he]]
    exact h
  · cases hc : cacheFind st ip with
    | some r =>
      rw [show lookupIp st rdap api ip = ⟨some r, st, false, false⟩ from by
        unfold lookupIp; rw [if_neg he, hc]]
      exact h
    | none =>
      cases hrdap : rdap with
      | none =>
        rw [lookupIp_none_state]
        exact h
      | some p =>
        obtain ⟨asn, rawd⟩ := p
        cases hl : lookupAsn st.asnData asn with
        | some i =>
          rw [lookupIp_known st api ip asn rawd i (by simpa using he) hc hl]
          exact h
        | none =>
          rw [lookupIp_miss_new st api ip asn rawd (by simpa using he) hc hl]
          unfold noCatchState at h ⊢
          have h1 := (Bool.and_eq_true_iff.1 h).1
          have h12 := (Bool.and_eq_true_iff.1 h1).1
          have hcc4 := (Bool.and_eq_true_iff.1 h1).2
          have hcc6 := (Bool.and_eq_true_iff.1 h).2
          have hcat := noCatch_categorize api hapi
          rw [Bool.and_eq_true_iff, Bool.and_eq_true_iff]
          refine ⟨⟨?_, ?_⟩, ?_⟩
          · show ((st.asnData ++
              [(asn, (⟨pyNormDesc rawd, (categorize api).1, (categorize api).2⟩ : AsnInfo))]).all
                (fun p => p.2.ipv4.all noCatchPfx && p.2.ipv6.all noCatchPfx)) = true
            rw [List.all_append, h12, Bool.true_and, List.all_cons]
            simp only [List.all_nil, Bool.and_true]
            rw [Bool.and_eq_true_iff]
            exact ⟨hcat.1, hcat.2⟩
          · exact noCatch_insertAll hcc4 hcat.1
          · exact noCatch_insertAll hcc6 hcat.2

theorem runOps_cons (st : IPState) (op : LookupOp) (ops : List LookupOp) :
    runOps st (op :: ops) = runOps (lookupIp st op.rdap op.api op.ip).state ops := rfl

/-- C7, counterexample: the catch-all does enter the system. (a) With an
empty map, `SubnetMapper.fetch_subnets` passes an API response containing
`0.0.0.0/0` through `split_ipv4_ipv6` unfiltered, and `add_subnets` then
stores it in the in-memory map. (b) In `IPLookup` itself,
`_categorize_subnets` compares only the raw text against the two literal
strings `"0.0.0.0/0"` / `"::/0"`: a valid non-canonical spelling of the
catch-all, such as `"0.0.0.0/0.0.0.0"` (here the token with
`excludedLiteral = false` parsing to the IPv4 `/0` network), bypasses the
filter, and one `lookup_ip` on the empty store puts `0.0.0.0/0` into both
`asn_data` and the IPv4 subnet cache. (c) Even with canonical spellings,
`save_cache`'s summarization can *recreate* `0.0.0.0/0` by collapsing the
complementary halves `0.0.0.0/1` and `128.0.0.0/1` fetched for one ASN,
and writes it to the cache file — from a state reached purely by one
lookup on an empty store. -/
theorem c7Counterexample :
    (⟨0, 0⟩ : Pfx) ∈ (fetchSubnetsMapper emptyMapper "64500" (some [Sum.inl ⟨0, 0⟩])).1 ∧
    (addSubnets emptyMapper (fetchSubnetsMapper emptyMapper "64500" (some [Sum.inl ⟨0, 0⟩]))
        "64500" "d").mp4 = [(⟨0, 0⟩, ("64500", "d"))] ∧
    (lookupIp emptyIPState (some ("64503", "d"))
        [⟨false, some (Sum.inl ⟨0, 0⟩)⟩] (.v4 134744072)).state =
      ⟨[("64503", ⟨"d", [⟨0, 0⟩], []⟩)], [(⟨0, 0⟩, ("64503", "d"))], []⟩ ∧
    noCatchState ((lookupIp emptyIPState (some ("64503", "d"))
        [⟨false, some (Sum.inl ⟨0, 0⟩)⟩] (.v4 134744072)).state) = false ∧
    saveData ((lookupIp emptyIPState (some ("64501", "d"))
        [⟨false, some (Sum.inl ⟨0, 1⟩)⟩, ⟨false, some (Sum.inl ⟨1, 1⟩)⟩]
        (.v4 134744072)).state) =
      [⟨"64501", "d", [⟨0, 0⟩], []⟩] :=
  ⟨by decide, by rfl, by rfl, by rfl, by rfl⟩

/-- C7 (amended): `_categorize_subnets` filters the catch-all only by
comparing the raw text against the literal strings `"0.0.0.0/0"` / `"::/0"`.
Provided every API token that parses to the `/0` network is spelled
canonically (i.e. is one of those literal strings), the catch-all never
enters the in-memory `IPLookup` state: starting from the empty store, after
any sequence of `lookup_ip` calls with arbitrary oracle answers whose
tokens satisfy `canonicalCatchAll`, neither `asn_data` nor the subnet cache
contains `0.0.0.0/0` or `::/0`. Without that proviso the invariant fails
(a valid spelling like `"0.0.0.0/0.0.0.0"` bypasses the string filter);
`SubnetMapper.fetch_subnets` performs no filtering at all; and
`save_cache`'s summarization can recreate the catch-all in the written
file (see the counterexample). -/
theorem c7NoCatchAllInvariant : ∀ ops : List LookupOp,
    (∀ op ∈ ops, ∀ rc ∈ op.api, canonicalCatchAll rc) →
    noCatchState (runOps emptyIPState ops) = true := by
  suffices h : ∀ (ops : List LookupOp) (st : IPState),
      (∀ op ∈ ops, ∀ rc ∈ op.api, canonicalCatchAll rc) →
      noCatchState st = true → noCatchState (runOps st ops) = true by
    intro ops hops
    exact h ops emptyIPState hops rfl
  intro ops
  induction ops with
  | nil => intro st _ h; exact h
  | cons op rest ih =>
    intro st hops h
    rw [runOps_cons]
    exact ih _ (fun o ho => hops o (List.mem_cons_of_mem _ ho))
      (noCatch_lookupIp st op.rdap op.api op.ip (hops op (List.mem_cons_self _ _)) h)

/-- Witness for C7: a batch of one lookup whose API answer holds the
canonically spelled catch-all plus `8.0.0.0/8` satisfies the proviso, and
the resulting state is catch-all free. -/
theorem c7Witness :
    (∀ op ∈ [(⟨.v4 134744072, some ("64501", "demo"),
        [⟨true, some (Sum.inl ⟨0, 0⟩)⟩, ⟨false, some (Sum.inl ⟨8, 8⟩)⟩]⟩ : LookupOp)],
      ∀ rc ∈ op.api, canonicalCatchAll rc) ∧
    noCatchState (runOps emptyIPState
      [⟨.v4 134744072, some ("64501", "demo"),
        [⟨true, some (Sum.inl ⟨0, 0⟩)⟩, ⟨false, some (Sum.inl ⟨8, 8⟩)⟩]⟩]) = true :=
  ⟨by decide, c7NoCatchAllInvariant _ (by decide)⟩

/-- C8, counterexample: two malformed tokens in a row make
`IPValidator.validate_ip` raise `ValueError` — malformed input is not always
skipped silently, and the raised error aborts the batch (it propagates to
`ip_parser.main`'s fatal handler, which exits). -/
theorem c8Counterexample :
    runValidator ⟨0⟩ [none, none] =
      Except.error "Could not find any valid IP addresses in the initial data" := by
  rfl

/-- C8 (amended): `IPAddressValidator.is_valid_ip` reports a token that
fails parsing as invalid without raising, and the log-analysis loop skips
such tokens silently — the batch state and results are exactly those of the
stream with the token removed; `IPValidator.validate_ip` (the ip_parser
pipeline), however, raises `ValueError` once two malformed tokens have been
seen, aborting its batch. -/
theorem c8SkipInvalid :
    (isValidIpTok none = false) ∧
    (∀ (mp : MapperState) (ag : AggState IPAddr) (rdap : Option (String × String))
        (api : Option (List (Sum Pfx Pfx))),
        logStep mp ag ⟨none, rdap, api⟩ = ⟨mp, ag, false⟩) ∧
    (∀ (mp : MapperState) (ag : AggState IPAddr) (ops1 ops2 : List LogOp)
        (rdap : Option (String × String)) (api : Option (List (Sum Pfx Pfx))),
        runLog mp ag (ops1 ++ ⟨none, rdap, api⟩ :: ops2) = runLog mp ag (ops1 ++ ops2)) := by
  refine ⟨rfl, fun _ _ _ _ => rfl, ?_⟩
  intro mp ag ops1 ops2 rdap api
  induction ops1 generalizing mp ag with
  | nil => rfl
  | cons op rest ih =>
    show runLog (logStep mp ag op).mapper (logStep mp ag op).agg (rest ++ _ :: ops2) = _
    rw [ih]
    rfl

/-- C9, counterexample: with two single-subnet chunks both matching
`8.8.8.8`, a schedule in which the worker of chunk 0 observes the match
event set by chunk 1 before reaching its own match is valid, yet the
chunked search returns chunk 1's record while the sequential first-match
scan returns chunk 0's — the parallel result is not always identical to the
sequential scan. -/
theorem c9Counterexample :
    ValidSched 32 134744072
      (chunksOf (chunkSize 2 20) [(⟨2056, 16⟩, ("64501", "one")), (⟨526344, 24⟩, ("64502", "two"))])
      (fun i => i == 0) ∧
    searchWithThreads ⟨[(⟨2056, 16⟩, ("64501", "one")), (⟨526344, 24⟩, ("64502", "two"))], []⟩
      (.v4 134744072) 20 (fun i => i == 0) = some ("64502", "two") ∧
    findAsnForIp ⟨[(⟨2056, 16⟩, ("64501", "one")), (⟨526344, 24⟩, ("64502", "two"))], []⟩
      (.v4 134744072) = some ("64501", "one") := by
  refine ⟨?_, by rfl, by rfl⟩
  intro i _ hi
  refine ⟨1, by decide, ?_, by decide⟩
  simp at hi
  simp [hi]

def familyList (mp : MapperState) : IPAddr → List (Pfx × (String × String))
  | .v4 _ => mp.mp4
  | .v6 _ => mp.mp6

def addrOf : IPAddr → Nat
  | .v4 a => a
  | .v6 a => a

def widthOf : IPAddr → Nat
  | .v4 _ => 32
  | .v6 _ => 128

theorem chunkSize_ne_zero (n tc : Nat) : chunkSize n tc ≠ 0 := by
  unfold chunkSize
  split
  · simp
  · assumption

/-- C9 (amended): the chunked threaded search over the address family's
subnets agrees with the sequential first-match scan whenever no worker is
preempted (e.g. when chunks run to completion one after the other); under
any valid schedule it returns `None` exactly when the sequential scan does —
it never misses all matches and never invents one — but when several chunks
contain matches the winning record can differ from the sequential
first-match record (see the counterexample). -/
theorem c9ParallelSearch (mp : MapperState) (ip : IPAddr) (tc : Nat) (sched : Nat → Bool)
    (hv : ValidSched (widthOf ip) (addrOf ip)
      (chunksOf (chunkSize (familyList mp ip).length tc) (familyList mp ip)) sched) :
    (searchWithThreads mp ip tc sched = none ↔ findAsnForIp mp ip = none) ∧
    ((∀ i, sched i = false) → searchWithThreads mp ip tc sched = findAsnForIp mp ip) := by
  cases ip with
  | v4 a =>
    simp only [widthOf, addrOf, familyList] at hv
    have hfl : (chunksOf (chunkSize mp.mp4.length tc) mp.mp4).flatten = mp.mp4 :=
      chunksOf_flatten _ _ (chunkSize_ne_zero _ _)
    constructor
    · show psGo 32 a sched (chunksOf (chunkSize mp.mp4.length tc) mp.mp4) 0 = none ↔
        firstMatch 32 mp.mp4 a = none
      rw [psGo_none_iff_flatten hv, hfl]
    · intro hs
      show psGo 32 a sched (chunksOf (chunkSize mp.mp4.length tc) mp.mp4) 0 =
        firstMatch 32 mp.mp4 a
      rw [psGo_all_live hs, hfl]
  | v6 a =>
    simp only [widthOf, addrOf, familyList] at hv
    have hfl : (chunksOf (chunkSize mp.mp6.length tc) mp.mp6).flatten = mp.mp6 :=
      chunksOf_flatten _ _ (chunkSize_ne_zero _ _)
    constructor
    · show psGo 128 a sched (chunksOf (chunkSize mp.mp6.length tc) mp.mp6) 0 = none ↔
        firstMatch 128 mp.mp6 a = none
      rw [psGo_none_iff_flatten hv, hfl]
    · intro hs
      show psGo 128 a sched (chunksOf (chunkSize mp.mp6.length tc) mp.mp6) 0 =
        firstMatch 128 mp.mp6 a
      rw [psGo_all_live hs, hfl]

/-- C9, witness: on a concrete two-subnet map with an unpreempted schedule
the chunked search equals the sequential scan. -/
theorem c9Witness :
    ValidSched 32 134744072
      (chunksOf (chunkSize 2 20) [(⟨2056, 16⟩, ("64501", "one")), (⟨526344, 24⟩, ("64502", "two"))])
      (fun _ => false) ∧
    (searchWithThreads ⟨[(⟨2056, 16⟩, ("64501", "one")), (⟨526344, 24⟩, ("64502", "two"))], []⟩
        (.v4 134744072) 20 (fun _ => false) =
      findAsnForIp ⟨[(⟨2056, 16⟩, ("64501", "one")), (⟨526344, 24⟩, ("64502", "two"))], []⟩
        (.v4 134744072)) :=
  ⟨fun i _ hi => by simp at hi,
   (c9ParallelSearch ⟨[(⟨2056, 16⟩, ("64501", "one")), (⟨526344, 24⟩, ("64502", "two"))], []⟩
      (.v4 134744072) 20 (fun _ => false)
      (fun i _ hi => by simp at hi)).2 (fun _ => rfl)⟩

/-! ### C10: aggregator bookkeeping -/

/-- The hits recorded for one (ASN, description) pair, in stream order. -/
def hitsFor (pair : String × String) (stream : List (String × String × String)) :
    List String :=
  (stream.filter (fun e => decide ((e.1, e.2.1) = pair))).map (fun e => e.2.2)

/-- Run the aggregator over a stream of `(asn, description, ip)` entries. -/
def runAgg (stream : List (String × String × String)) : AggState String :=
  stream.foldl (fun ag e => addEntry ag e.1 e.2.1 e.2.2) []

/-- Distinct elements in order of first occurrence. -/
def distinctFirst {I : Type} [DecidableEq I] (l : List I) : List I :=
  l.foldl (fun acc x => if x ∈ acc then acc else acc ++ [x]) []

/-- The last `n` elements of a list. -/
def lastN {I : Type} (n : Nat) (l : List I) : List I := l.drop (l.length - n)

theorem mem_foldl_distinct {I : Type} [DecidableEq I] :
    ∀ (l : List I) (acc : List I) (a : I),
      a ∈ l.foldl (fun acc x => if x ∈ acc then acc else acc ++ [x]) acc ↔
        a ∈ acc ∨ a ∈ l := by
  intro l
  induction l with
  | nil => intro acc a; simp
  | cons x rest ih =>
    intro acc a
    rw [List.foldl_cons]
    by_cases hx : x ∈ acc
    · rw [if_pos hx, ih]
      constructor
      · rintro (h | h)
        · exact Or.inl h
        · exact Or.inr (List.mem_cons_of_mem _ h)
      · rintro (h | h)
        · exact Or.inl h
        · rcases List.mem_cons.1 h with h | h
          · exact Or.inl (h ▸ hx)
          · exact Or.inr h
    · rw [if_neg hx, ih]
      simp only [List.mem_append, List.mem_singleton, List.mem_cons]
      tauto

theorem mem_distinctFirst {I : Type} [DecidableEq I] {l : List I} {a : I} :
    a ∈ distinctFirst l ↔ a ∈ l := by
  unfold distinctFirst
  rw [mem_foldl_distinct]
  simp

theorem distinctFirst_concat {I : Type} [DecidableEq I] (l : List I) (x : I) :
    distinctFirst (l ++ [x]) =
      if x ∈ l then distinctFirst l else distinctFirst l ++ [x] := by
  unfold distinctFirst
  rw [List.foldl_append, List.foldl_cons, List.foldl_nil]
  by_cases hx : x ∈ l
  · rw [if_pos (mem_foldl_distinct l [] x |>.2 (Or.inr hx)), if_pos hx]
  · rw [if_neg (fun h => hx (by simpa using (mem_foldl_distinct l [] x).1 h)), if_neg hx]

theorem dequeAppend3_lastN {I : Type} (l : List I) (x : I) :
    dequeAppend3 (lastN 3 l) x = lastN 3 (l ++ [x]) := by
  unfold dequeAppend3 lastN
  rw [List.length_drop]
  by_cases h : l.length < 3
  · rw [if_pos (by omega)]
    have h0 : l.length - 3 = 0 := by omega
    have h1 : (l ++ [x]).length - 3 = 0 := by
      rw [List.length_append]
      simp
      omega
    rw [h0, h1, List.drop_zero, List.drop_zero]
  · rw [if_neg (by omega)]
    rw [List.tail_drop]
    have h1 : (l ++ [x]).length - 3 = l.length - 2 := by
      rw [List.length_append]
      simp
    rw [h1, List.drop_append_of_le_length (by omega)]
    have h2 : l.length - 3 + 1 = l.length - 2 := by omega
    rw [h2]

theorem runAgg_concat (l : List (String × String × String)) (e : String × String × String) :
    runAgg (l ++ [e]) = addEntry (runAgg l) e.1 e.2.1 e.2.2 := by
  unfold runAgg
  rw [List.foldl_append, List.foldl_cons, List.foldl_nil]

theorem hitsFor_concat (pair : String × String) (l : List (String × String × String))
    (e : String × String × String) :
    hitsFor pair (l ++ [e]) =
      hitsFor pair l ++ (if (e.1, e.2.1) = pair then [e.2.2] else []) := by
  unfold hitsFor
  rw [List.filter_append, List.map_append]
  by_cases h : (e.1, e.2.1) = pair
  · rw [if_pos h]
    simp [h]
  · rw [if_neg h]
    simp [h]

theorem aggFind_cons {I : Type} (p : (String × String) × AggData I)
    (rest : AggState I) (q : String × String) :
    aggFind (p :: rest) q = if p.1 = q then some p.2 else aggFind rest q := rfl

theorem aggFind_map_update {I : Type} [DecidableEq I] (ag : AggState I)
    (k q : String × String) (x : I) :
    aggFind (ag.map (fun p => if p.1 = k then (p.1, updAggData p.2 x) else p)) q =
      if q = k then (aggFind ag q).map (fun d => updAggData d x) else aggFind ag q := by
  induction ag with
  | nil => by_cases hqk : q = k <;> simp [aggFind, hqk]
  | cons p rest ih =>
    rw [List.map_cons]
    by_cases hp : p.1 = k
    · rw [if_pos hp, aggFind_cons, aggFind_cons]
      by_cases hq : p.1 = q
      · have hqk : q = k := by rw [← hq, hp]
        rw [if_pos (show ((p.1, updAggData p.2 x) : (String × String) × AggData I).1 = q
              from hq),
            if_pos hq, if_pos hqk]
        rfl
      · have hqk : ¬ q = k := fun h => hq (by rw [h, ← hp])
        rw [if_neg (show ¬ ((p.1, updAggData p.2 x) : (String × String) × AggData I).1 = q
              from hq),
            if_neg hq, ih, if_neg hqk]
    · rw [if_neg hp, aggFind_cons, aggFind_cons]
      by_cases hq : p.1 = q
      · have hqk : ¬ q = k := fun h => hp (by rw [hq, h])
        rw [if_pos hq, if_pos hq, if_neg hqk]
      · rw [if_neg hq, if_neg hq, ih]

theorem aggFind_append_kv {I : Type} (ag : AggState I) (k q : String × String)
    (v : AggData I) :
    aggFind (ag ++ [(k, v)]) q =
      match aggFind ag q with
      | some d => some d
      | none => if q = k then some v else none := by
  induction ag with
  | nil =>
    show aggFind [(k, v)] q = if q = k then some v else none
    rw [aggFind_cons]
    by_cases hq : q = k
    · rw [if_pos (show ((k, v) : (String × String) × AggData I).1 = q from hq.symm),
        if_pos hq]
    · rw [if_neg (show ¬ ((k, v) : (String × String) × AggData I).1 = q from
        fun h => hq h.symm), if_neg hq]
      rfl
  | cons p rest ih =>
    show aggFind (p :: (rest ++ [(k, v)])) q = _
    rw [aggFind_cons, aggFind_cons]
    by_cases hq : p.1 = q
    · rw [if_pos hq, if_pos hq]
    · rw [if_neg hq, if_neg hq]
      exact ih

theorem aggFind_addEntry_ne {I : Type} [DecidableEq I] (ag : AggState I)
    (a d : String) (x : I) (pair : String × String) (h : pair ≠ (a, d)) :
    aggFind (addEntry ag a d x) pair = aggFind ag pair := by
  unfold addEntry
  split
  · rw [aggFind_map_update, if_neg h]
  · rw [aggFind_append_kv]
    cases hf : aggFind ag pair with
    | some v => rfl
    | none => rw [if_neg h]

theorem aggFind_addEntry_self {I : Type} [DecidableEq I] (ag : AggState I)
    (a d : String) (x : I) :
    aggFind (addEntry ag a d x) (a, d) =
      some (updAggData ((aggFind ag (a, d)).getD ⟨[], [], 0⟩) x) := by
  unfold addEntry
  split
  · rename_i hsome
    rw [aggFind_map_update, if_pos rfl]
    cases hf : aggFind ag (a, d) with
    | some v => rfl
    | none => rw [hf] at hsome; simp at hsome
  · rename_i hnone
    rw [aggFind_append_kv]
    cases hf : aggFind ag (a, d) with
    | some v => rw [hf] at hnone; simp at hnone
    | none => rw [if_pos rfl]; rfl

/-- C10: for every stream of `(asn, description, ip)` entries added from an
empty aggregator, each tracked pair's `total_entries` is the number of add
calls for the pair (repeats included), its distinct-IP list is the distinct
IPs in first-occurrence order (so `unique_ip_count` is the number of
distinct IPs), and the sample deque holds the last 3 of those distinct IPs
(insertion-ordered retention, oldest dropped); untracked pairs are absent.
In particular, on the hits `("A","d","1.1.1.1")`, `("A","d","1.1.1.1")`,
`("A","d","2.2.2.2")`, `summarize` reports `total_hits = 3`,
`unique_ip_count = 2` and both addresses as samples. -/
theorem c10Aggregator :
    (∀ (stream : List (String × String × String)) (pair : String × String),
        aggFind (runAgg stream) pair =
          match hitsFor pair stream with
          | [] => none
          | hs => some ⟨distinctFirst hs, lastN 3 (distinctFirst hs), hs.length⟩) ∧
    summarize (runAgg [("A", "d", "1.1.1.1"), ("A", "d", "1.1.1.1"), ("A", "d", "2.2.2.2")])
        "IP Count" =
      [⟨"A", "d", 2, 3, "1.1.1.1, 2.2.2.2"⟩] := by
  constructor
  · intro stream
    induction stream using List.reverseRecOn with
    | nil => intro pair; rfl
    | append_singleton l e ih =>
      intro pair
      rw [runAgg_concat, hitsFor_concat]
      by_cases hp : (e.1, e.2.1) = pair
      · rw [if_pos hp]
        have hee : e.1 = pair.1 ∧ e.2.1 = pair.2 := by
          rw [← hp]
          exact ⟨rfl, rfl⟩
        have hself : aggFind (addEntry (runAgg l) e.1 e.2.1 e.2.2) pair =
            some (updAggData ((aggFind (runAgg l) pair).getD ⟨[], [], 0⟩) e.2.2) := by
          have := aggFind_addEntry_self (runAgg l) e.1 e.2.1 e.2.2
          rw [show ((e.1, e.2.1) : String × String) = pair from hp] at this
          exact this
        rw [hself, ih pair]
        cases hh : hitsFor pair l with
        | nil =>
          show some (updAggData ⟨[], [], 0⟩ e.2.2) = _
          unfold updAggData
          rw [if_neg (by simp)]
          rfl
        | cons h0 hrest =>
          show some (updAggData ⟨distinctFirst (h0 :: hrest),
              lastN 3 (distinctFirst (h0 :: hrest)), (h0 :: hrest).length⟩ e.2.2) = _
          have hne : (h0 :: hrest) ++ [e.2.2] ≠ [] := by simp
          rw [show (match (h0 :: hrest) ++ [e.2.2] with
            | [] => (none : Option (AggData String))
            | hs => some ⟨distinctFirst hs, lastN 3 (distinctFirst hs), hs.length⟩) =
            some ⟨distinctFirst ((h0 :: hrest) ++ [e.2.2]),
              lastN 3 (distinctFirst ((h0 :: hrest) ++ [e.2.2])),
              ((h0 :: hrest) ++ [e.2.2]).length⟩ from rfl]
          unfold updAggData
          by_cases hmem : e.2.2 ∈ distinctFirst (h0 :: hrest)
          · rw [if_pos (by simpa using hmem)]
            rw [distinctFirst_concat, if_pos (mem_distinctFirst.1 hmem)]
            simp
          · rw [if_neg (by simpa using hmem)]
            rw [distinctFirst_concat,
              if_neg (fun hc => hmem (mem_distinctFirst.2 hc))]
            rw [dequeAppend3_lastN]
            simp
      · rw [if_neg hp, List.append_nil]
        rw [aggFind_addEntry_ne _ _ _ _ _ (fun hc => hp hc.symm), ih pair]
  · rfl

/-! ### C3: round-trip serialization -/

/-- Rebuild a family cache from (asn, description, subnets) rows the way
`load_cache` does after `save_cache` summarized each row. -/
def rebuildRows (W : Nat) (rows : List (String × String × List Pfx)) :
    List (Pfx × (String × String)) :=
  rows.foldl (fun acc row => insertAll acc (summarizeSubnets W row.2.2) (row.1, row.2.1)) []

theorem mem_cacheInsert {c : List (Pfx × (String × String))} {n : Pfx}
    {r : String × String} {e : Pfx × (String × String)}
    (h : e ∈ cacheInsert c n r) : e ∈ c ∨ e = (n, r) := by
  unfold cacheInsert at h
  split at h
  · rcases List.mem_map.1 h with ⟨e0, he0, heq⟩
    by_cases hk : e0.1 == n
    · rw [if_pos hk] at heq
      exact Or.inr heq.symm
    · rw [if_neg hk] at heq
      exact Or.inl (heq ▸ he0)
  · rcases List.mem_append.1 h with h | h
    · exact Or.inl h
    · exact Or.inr (by simpa using h)

theorem mem_insertAll {ns : List Pfx} :
    ∀ {c : List (Pfx × (String × String))} {r : String × String}
      {e : Pfx × (String × String)},
      e ∈ insertAll c ns r → e ∈ c ∨ ∃ n ∈ ns, e = (n, r) := by
  induction ns with
  | nil => intro c r e h; exact Or.inl h
  | cons n rest ih =>
    intro c r e h
    rcases ih h with h' | ⟨n', hn', he⟩
    · rcases mem_cacheInsert h' with h'' | h''
      · exact Or.inl h''
      · exact Or.inr ⟨n, List.mem_cons_self _ _, h''⟩
    · exact Or.inr ⟨n', List.mem_cons_of_mem _ hn', he⟩

theorem mem_rebuild_fold {W : Nat} :
    ∀ (rows : List (String × String × List Pfx))
      (acc : List (Pfx × (String × String))) (e : Pfx × (String × String)),
      e ∈ rows.foldl (fun acc row =>
          insertAll acc (summarizeSubnets W row.2.2) (row.1, row.2.1)) acc →
      e ∈ acc ∨ ∃ row ∈ rows, e.2 = (row.1, row.2.1) ∧ e.1 ∈ summarizeSubnets W row.2.2 := by
  intro rows
  induction rows with
  | nil => intro acc e h; exact Or.inl h
  | cons row0 rest ih =>
    intro acc e h
    rw [List.foldl_cons] at h
    rcases ih _ e h with h' | ⟨row, hrow, h1, h2⟩
    · rcases mem_insertAll h' with h'' | ⟨n, hn, he⟩
      · exact Or.inl h''
      · refine Or.inr ⟨row0, List.mem_cons_self _ _, ?_, ?_⟩
        · rw [he]
        · rw [he]
          exact hn
    · exact Or.inr ⟨row, List.mem_cons_of_mem _ hrow, h1, h2⟩

theorem key_cacheInsert_old {c : List (Pfx × (String × String))} {n m : Pfx}
    {r : String × String} (h : ∃ e ∈ c, e.1 = m) :
    ∃ e ∈ cacheInsert c n r, e.1 = m := by
  obtain ⟨e0, he0, hk⟩ := h
  unfold cacheInsert
  split
  · by_cases hc : e0.1 == n
    · refine ⟨(n, r), List.mem_map.2 ⟨e0, he0, by rw [if_pos hc]⟩, ?_⟩
      have : e0.1 = n := by simpa using hc
      rw [← this, hk]
    · exact ⟨e0, List.mem_map.2 ⟨e0, he0, by rw [if_neg hc]⟩, hk⟩
  · exact ⟨e0, List.mem_append.2 (Or.inl he0), hk⟩

theorem key_cacheInsert_new {c : List (Pfx × (String × String))} {n : Pfx}
    {r : String × String} : ∃ e ∈ cacheInsert c n r, e.1 = n := by
  unfold cacheInsert
  split
  · rename_i hany
    rcases List.any_eq_true.1 hany with ⟨e0, he0, hk⟩
    exact ⟨(n, r), List.mem_map.2 ⟨e0, he0, by rw [if_pos hk]⟩, rfl⟩
  · exact ⟨(n, r), List.mem_append.2 (Or.inr (List.mem_singleton.2 rfl)), rfl⟩

theorem key_insertAll_old {ns : List Pfx} :
    ∀ {c : List (Pfx × (String × String))} {r : String × String} {m : Pfx},
      (∃ e ∈ c, e.1 = m) → ∃ e ∈ insertAll c ns r, e.1 = m := by
  induction ns with
  | nil => intro c r m h; exact h
  | cons n rest ih =>
    intro c r m h
    exact ih (key_cacheInsert_old h)

theorem insertAll_cons (c : List (Pfx × (String × String))) (n : Pfx) (ns : List Pfx)
    (r : String × String) : insertAll c (n :: ns) r = insertAll (cacheInsert c n r) ns r := rfl

theorem key_insertAll_new {ns : List Pfx} {n : Pfx} (hn : n ∈ ns) :
    ∀ {c : List (Pfx × (String × String))} {r : String × String},
      ∃ e ∈ insertAll c ns r, e.1 = n := by
  induction ns with
  | nil => exact absurd hn (by simp)
  | cons n0 rest ih =>
    intro c r
    rw [insertAll_cons]
    rcases List.mem_cons.1 hn with h | h
    · subst h
      exact key_insertAll_old key_cacheInsert_new
    · exact ih h

theorem key_fold_old {W : Nat} :
    ∀ (rows : List (String × String × List Pfx))
      (acc : List (Pfx × (String × String))) (m : Pfx),
      (∃ e ∈ acc, e.1 = m) →
      ∃ e ∈ rows.foldl (fun acc row =>
          insertAll acc (summarizeSubnets W row.2.2) (row.1, row.2.1)) acc, e.1 = m := by
  intro rows
  induction rows with
  | nil => intro acc m h; exact h
  | cons row0 rest ih =>
    intro acc m h
    rw [List.foldl_cons]
    exact ih _ m (key_insertAll_old h)

theorem key_rebuild {W : Nat} {rows : List (String × String × List Pfx)}
    {row : String × String × List Pfx} {n : Pfx}
    (hrow : row ∈ rows) (hn : n ∈ summarizeSubnets W row.2.2) :
    ∃ e ∈ rebuildRows W rows, e.1 = n := by
  unfold rebuildRows
  suffices h : ∀ (rs : List (String × String × List Pfx))
      (acc : List (Pfx × (String × String))), row ∈ rs →
      ∃ e ∈ rs.foldl (fun acc row =>
          insertAll acc (summarizeSubnets W row.2.2) (row.1, row.2.1)) acc, e.1 = n by
    exact h rows [] hrow
  intro rs
  induction rs with
  | nil => intro acc h; exact absurd h (by simp)
  | cons r0 rest ih =>
    intro acc h
    rw [List.foldl_cons]
    rcases List.mem_cons.1 h with h | h
    · subst h
      exact key_fold_old rest _ n (key_insertAll_new hn)
    · exact ih _ h

theorem firstMatch_isSome_of_cov {W a : Nat} {c : List (Pfx × (String × String))}
    (h : ∃ e ∈ c, memB W e.1 a = true) : ∃ r, firstMatch W c a = some r := by
  obtain ⟨e, he, hm⟩ := h
  unfold firstMatch
  cases hf : c.find? (fun e => memB W e.1 a) with
  | some e' => exact ⟨e'.2, rfl⟩
  | none =>
    rw [List.find?_eq_none] at hf
    exact absurd hm (by simpa using hf e he)

theorem firstMatch_some_mem {W a : Nat} {c : List (Pfx × (String × String))}
    {r : String × String} (h : firstMatch W c a = some r) :
    ∃ m, (m, r) ∈ c ∧ memB W m a = true := by
  unfold firstMatch at h
  cases hf : c.find? (fun e => memB W e.1 a) with
  | none => rw [hf] at h; simp at h
  | some e =>
    rw [hf] at h
    have hr : e.2 = r := by simpa using h
    have hmem := List.mem_of_find?_eq_some hf
    have hp := List.find?_some hf
    refine ⟨e.1, ?_, by simpa using hp⟩
    rw [← hr]
    exact hmem

/-- The core of C3 (amended), one address family at a time: on coherent
rows whose covering subnets for `a` all carry one record, the rebuilt
(summarized then reloaded) cache resolves `a` exactly as the original
cache, and both succeed. -/
theorem roundtripRows (W a : Nat) (rows : List (String × String × List Pfx))
    (cacheF : List (Pfx × (String × String)))
    (Hcoh : ∀ e ∈ cacheF, ∃ row ∈ rows, e.2 = (row.1, row.2.1) ∧ e.1 ∈ row.2.2)
    (Hnc : ∀ row ∈ rows, ∀ n ∈ row.2.2, n ≠ ⟨0, 0⟩)
    (Hwf : ∀ row ∈ rows, ∀ n ∈ row.2.2, n.len ≤ W)
    (Huniq : ∀ r1 ∈ rows, ∀ r2 ∈ rows, ∀ n1 ∈ r1.2.2, ∀ n2 ∈ r2.2.2,
        memB W n1 a = true → memB W n2 a = true → (r1.1, r1.2.1) = (r2.1, r2.2.1))
    (Hcov : ∃ e ∈ cacheF, memB W e.1 a = true) :
    firstMatch W (rebuildRows W rows) a = firstMatch W cacheF a ∧
      (firstMatch W cacheF a).isSome = true := by
  obtain ⟨r0, hr0⟩ := firstMatch_isSome_of_cov Hcov
  obtain ⟨m0, hm0mem, hm0⟩ := firstMatch_some_mem hr0
  obtain ⟨row0, hrow0, hrec0, hn0⟩ := Hcoh (m0, r0) hm0mem
  have hwf0 : ∀ n ∈ row0.2.2.filter (fun n => decide (n ≠ ⟨0, 0⟩)), n.len ≤ W :=
    fun n hn => Hwf row0 hrow0 n (List.mem_filter.1 hn).1
  have hm0f : m0 ∈ row0.2.2.filter (fun n => decide (n ≠ ⟨0, 0⟩)) :=
    List.mem_filter.2 ⟨hn0, by simp [Hnc row0 hrow0 m0 hn0]⟩
  have hcovsum : coveredBy W (summarizeSubnets W row0.2.2) a := by
    unfold summarizeSubnets
    rw [pyCollapse_covered hwf0]
    exact ⟨m0, hm0f, hm0⟩
  obtain ⟨n', hn'mem, hn'⟩ := hcovsum
  obtain ⟨e', he'mem, he'key⟩ := key_rebuild hrow0 hn'mem
  have hcov' : ∃ e ∈ rebuildRows W rows, memB W e.1 a = true :=
    ⟨e', he'mem, by rw [he'key]; exact hn'⟩
  obtain ⟨r', hr'⟩ := firstMatch_isSome_of_cov hcov'
  obtain ⟨m', hm'mem, hm'⟩ := firstMatch_some_mem hr'
  have hchar := mem_rebuild_fold rows [] (m', r') hm'mem
  rcases hchar with habs | ⟨row1, hrow1, hrec1, hm'sum⟩
  · exact absurd habs (by simp)
  · have hwf1 : ∀ n ∈ row1.2.2.filter (fun n => decide (n ≠ ⟨0, 0⟩)), n.len ≤ W :=
      fun n hn => Hwf row1 hrow1 n (List.mem_filter.1 hn).1
    have hcovback : coveredBy W (row1.2.2.filter (fun n => decide (n ≠ ⟨0, 0⟩))) a := by
      have := (pyCollapse_covered hwf1).1 ⟨m', by simpa [summarizeSubnets] using hm'sum, hm'⟩
      simpa [summarizeSubnets] using this
    obtain ⟨n1, hn1mem, hn1⟩ := hcovback
    have hn1rows : n1 ∈ row1.2.2 := (List.mem_filter.1 hn1mem).1
    have huq := Huniq row0 hrow0 row1 hrow1 m0 hn0 n1 hn1rows hm0 hn1
    have hr'eq : r' = r0 := by
      have h1 : r' = (row1.1, row1.2.1) := by simpa using hrec1
      have h0 : r0 = (row0.1, row0.2.1) := by simpa using hrec0
      rw [h1, h0, ← huq]
    constructor
    · rw [hr', hr0, hr'eq]
    · rw [hr0]
      rfl

def familyRows (st : IPState) : IPAddr → List (String × String × List Pfx)
  | .v4 _ => st.asnData.map (fun p => (p.1, p.2.description, p.2.ipv4))
  | .v6 _ => st.asnData.map (fun p => (p.1, p.2.description, p.2.ipv6))

def familyCacheOf (st : IPState) : IPAddr → List (Pfx × (String × String))
  | .v4 _ => st.cache4
  | .v6 _ => st.cache6

theorem loadCache_saveData_cache4 (st : IPState) :
    (loadCache (saveData st)).cache4 =
      rebuildRows 32 (st.asnData.map (fun p => (p.1, p.2.description, p.2.ipv4))) := by
  unfold loadCache saveData rebuildRows
  simp only [List.foldl_map]

theorem loadCache_saveData_cache6 (st : IPState) :
    (loadCache (saveData st)).cache6 =
      rebuildRows 128 (st.asnData.map (fun p => (p.1, p.2.description, p.2.ipv6))) := by
  unfold loadCache saveData rebuildRows
  simp only [List.foldl_map]

/-- C3, counterexample: a store state reached from the empty store by two
plain `lookup_ip` calls (two ASNs that both announce `8.8.8.0/24`; the dict
overwrite leaves `8.8.8.0/24 → AS 64502` in the cache while AS 64501 keeps
`8.8.8.0/24` and `8.8.9.0/24` in its `asn_data` set) resolves `8.8.8.8` to
`("64502", "as two")`; saving summarizes AS 64501's pair into `8.8.8.0/23`,
and after reloading the first match for `8.8.8.8` is that `/23`, so the same
address now resolves to `("64501", "as one")` — the round trip changes the
resolution of an address covered by the original cached subnets. -/
theorem c3Counterexample :
    (∃ e ∈ ((lookupIp (lookupIp emptyIPState (some ("64501", "AS One, Inc"))
      [⟨false, some (Sum.inl ⟨526344, 24⟩)⟩, ⟨false, some (Sum.inl ⟨526345, 24⟩)⟩] (.v4 134744500)).state
      (some ("64502", "AS Two, LLC"))
      [⟨false, some (Sum.inl ⟨526344, 24⟩)⟩, ⟨false, some (Sum.inl ⟨65793, 24⟩)⟩] (.v4 16843009)).state).cache4,
      memB 32 e.1 134744072 = true) ∧
    cacheFind ((lookupIp (lookupIp emptyIPState (some ("64501", "AS One, Inc"))
      [⟨false, some (Sum.inl ⟨526344, 24⟩)⟩, ⟨false, some (Sum.inl ⟨526345, 24⟩)⟩] (.v4 134744500)).state
      (some ("64502", "AS Two, LLC"))
      [⟨false, some (Sum.inl ⟨526344, 24⟩)⟩, ⟨false, some (Sum.inl ⟨65793, 24⟩)⟩] (.v4 16843009)).state)
      (.v4 134744072) = some ("64502", "as two") ∧
    cacheFind (loadCache (saveData ((lookupIp (lookupIp emptyIPState (some ("64501", "AS One, Inc"))
      [⟨false, some (Sum.inl ⟨526344, 24⟩)⟩, ⟨false, some (Sum.inl ⟨526345, 24⟩)⟩] (.v4 134744500)).state
      (some ("64502", "AS Two, LLC"))
      [⟨false, some (Sum.inl ⟨526344, 24⟩)⟩, ⟨false, some (Sum.inl ⟨65793, 24⟩)⟩] (.v4 16843009)).state)))
      (.v4 134744072) = some ("64501", "as one") :=
  ⟨⟨(⟨526344, 24⟩, ("64502", "as two")), by decide, by decide⟩, by rfl, by rfl⟩

/-- C3 (amended): the round trip preserves resolution for every address all
of whose covering subnets carry a single (ASN, description) record. For a
store state whose family cache is coherent with its ASN data, which holds
no catch-all prefix and only width-fitting prefixes, and for an address
covered by the cached subnets such that any two covering subnets across the
ASN data agree on (ASN, description), saving (with summarization) and
reloading yields the same resolution, and it succeeds. When subnets of
different ASNs overlap on the address, the resolved record can change (see
the counterexample). -/
theorem c3RoundTripUnique (st : IPState) (ip : IPAddr)
    (Hcoh : ∀ e ∈ familyCacheOf st ip, ∃ row ∈ familyRows st ip,
        e.2 = (row.1, row.2.1) ∧ e.1 ∈ row.2.2)
    (Hnc : ∀ row ∈ familyRows st ip, ∀ n ∈ row.2.2, n ≠ ⟨0, 0⟩)
    (Hwf : ∀ row ∈ familyRows st ip, ∀ n ∈ row.2.2, n.len ≤ widthOf ip)
    (Huniq : ∀ r1 ∈ familyRows st ip, ∀ r2 ∈ familyRows st ip,
        ∀ n1 ∈ r1.2.2, ∀ n2 ∈ r2.2.2,
        memB (widthOf ip) n1 (addrOf ip) = true → memB (widthOf ip) n2 (addrOf ip) = true →
        (r1.1, r1.2.1) = (r2.1, r2.2.1))
    (Hcov : ∃ e ∈ familyCacheOf st ip, memB (widthOf ip) e.1 (addrOf ip) = true) :
    cacheFind (loadCache (saveData st)) ip = cacheFind st ip ∧
      (cacheFind st ip).isSome = true := by
  cases ip with
  | v4 a =>
    simp only [familyRows, familyCacheOf, widthOf, addrOf] at Hcoh Hnc Hwf Huniq Hcov
    have hcore := roundtripRows 32 a
      (st.asnData.map (fun p => (p.1, p.2.description, p.2.ipv4))) st.cache4
      Hcoh Hnc Hwf Huniq Hcov
    show firstMatch 32 (loadCache (saveData st)).cache4 a = firstMatch 32 st.cache4 a ∧
      (firstMatch 32 st.cache4 a).isSome = true
    rw [loadCache_saveData_cache4]
    exact hcore
  | v6 a =>
    simp only [familyRows, familyCacheOf, widthOf, addrOf] at Hcoh Hnc Hwf Huniq Hcov
    have hcore := roundtripRows 128 a
      (st.asnData.map (fun p => (p.1, p.2.description, p.2.ipv6))) st.cache6
      Hcoh Hnc Hwf Huniq Hcov
    show firstMatch 128 (loadCache (saveData st)).cache6 a = firstMatch 128 st.cache6 a ∧
      (firstMatch 128 st.cache6 a).isSome = true
    rw [loadCache_saveData_cache6]
    exact hcore

/-- C3, witness: a coherent one-ASN store resolves `8.8.8.8` identically
before and after the save/load round trip. -/
theorem c3Witness :
    (∀ e ∈ familyCacheOf ⟨[("64501", ⟨"demo", [⟨8, 8⟩], []⟩)],
        [(⟨8, 8⟩, ("64501", "demo"))], []⟩ (.v4 134744072),
      ∃ row ∈ familyRows ⟨[("64501", ⟨"demo", [⟨8, 8⟩], []⟩)],
          [(⟨8, 8⟩, ("64501", "demo"))], []⟩ (.v4 134744072),
        e.2 = (row.1, row.2.1) ∧ e.1 ∈ row.2.2) ∧
    cacheFind (loadCache (saveData ⟨[("64501", ⟨"demo", [⟨8, 8⟩], []⟩)],
        [(⟨8, 8⟩, ("64501", "demo"))], []⟩)) (.v4 134744072) =
      cacheFind ⟨[("64501", ⟨"demo", [⟨8, 8⟩], []⟩)],
        [(⟨8, 8⟩, ("64501", "demo"))], []⟩ (.v4 134744072) ∧
    (cacheFind ⟨[("64501", ⟨"demo", [⟨8, 8⟩], []⟩)],
        [(⟨8, 8⟩, ("64501", "demo"))], []⟩ (.v4 134744072)).isSome = true := by
  refine ⟨by decide, ?_⟩
  exact c3RoundTripUnique ⟨[("64501", ⟨"demo", [⟨8, 8⟩], []⟩)],
      [(⟨8, 8⟩, ("64501", "demo"))], []⟩ (.v4 134744072)
    (by decide) (by decide) (by decide) (by decide) (by decide)

end SyrupShroud
